import Mathlib

/-!
Verification of the content-calendar scheduler of this repository.

The development shallowly embeds the two scheduling modules:

* namespace `CP` embeds `content_planner.py` (validation, the greedy
  placement solver `get_post_schedule`, the balancing pass and the
  flattening step).  This algorithm is deterministic: the only use of
  `random.choice` in the module sits in `find_best_day`, which
  `get_post_schedule` never calls, and Python's stable `list.sort` is
  modelled by the stable insertion sort `pySort` below.
* namespace `SG` embeds `schedule_generator_new.py` (the priority ranker
  `calculate_message_priority` and the weekly planner
  `get_planned_posts_for_week_smart`).  Its random draws
  (`random.choice`, `random.shuffle`) are modelled by explicit oracle
  parameters, so theorems quantify over every possible draw.

Dates are modelled as integer day offsets; in `CP` a day is identified by
its offset `7 * week + day` from the (midnight-normalised) start date,
exactly how `get_post_schedule` constructs `all_days` dates.

Python `while` loops bounded by an attempt counter are modelled with an
explicit fuel argument.  Every iteration of those loops increments either
the placed counter (bounded by the target) or the attempt counter
(bounded by 50), so fuel `target + 50` (resp. `51` where the attempt
counter is incremented on every iteration) can never be exhausted before
the loop condition fails; the fuel-zero branch is unreachable.
-/

namespace CP

/-- One post as stored in a day's `posts` list: `{'title': ..., 'link': ...}`. -/
structure Post where
  title : String
  link : String
deriving DecidableEq, Repr, Inhabited

/-- The planning grid `all_days`: a list of weeks, each a list of days,
each day the list of posts placed on it.  The date of day `(w, d)` is the
offset `7 * w + d` from the start date (`current_date + timedelta(days=day + week*7)`). -/
abbrev AllDays := List (List (List Post))

/-- One input row of the Excel catalog: columns A (title), B (posts per
week), C (posts per month), D (link), E (alternation references, the raw
cell rendered as a string).  Empty cells are `none` (`pd.notna` is false). -/
structure Row where
  title : String
  B : Option ℚ
  C : Option ℚ
  link : String
  E : Option String
deriving DecidableEq, Repr

/-- Python `str.strip()` on the characters of a string: drop whitespace
from both ends. -/
def trimChars (l : List Char) : List Char :=
  ((l.dropWhile Char.isWhitespace).reverse.dropWhile Char.isWhitespace).reverse

/-- Digits of an ASCII-decimal character list folded into a natural number. -/
def digitsVal (l : List Char) : ℕ :=
  l.foldl (fun a c => a * 10 + (c.toNat - 48)) 0

/-- Model of Python `int(str)`: strip whitespace, optional sign, then one
or more decimal digits; anything else raises `ValueError` (modelled as
`none`). -/
def pyParseInt (l : List Char) : Option ℤ :=
  let t := trimChars l
  let core := if t.headD ' ' = '-' ∨ t.headD ' ' = '+' then t.drop 1 else t
  if core.length ≠ 0 ∧ core.all Char.isDigit then
    some (if t.headD ' ' = '-' then -(digitsVal core : ℤ) else (digitsVal core : ℤ))
  else none

/-- Python `split(',')` on the characters of a string: the comma-separated
chunks, in order, an empty string giving the single chunk `[]`. -/
def splitOnComma : List Char → List (List Char)
  | [] => [[]]
  | c :: rest =>
    if c = ',' then [] :: splitOnComma rest
    else
      match splitOnComma rest with
      | [] => [[c]]
      | g :: gs => (c :: g) :: gs

/-- `[int(x.strip()) for x in str(row['E']).split(',')]`; `none` models the
`ValueError` raised on a malformed component. -/
def parseAlternation (s : String) : Option (List ℤ) :=
  (splitOnComma s.toList).mapM pyParseInt

/-- Stable insertion of `a` into a sorted list: `a` goes after every `b`
with `le b a`, so elements comparing equal keep their original order. -/
def pyInsert (le : α → α → Bool) (a : α) : List α → List α
  | [] => [a]
  | b :: bs => if le b a then b :: pyInsert le a bs else a :: b :: bs

/-- Stable sort, producing the same list as Python's stable `list.sort`
for a total preorder comparison (ties keep their original order). -/
def pySort (le : α → α → Bool) (l : List α) : List α :=
  l.foldl (fun acc x => pyInsert le x acc) []

/-- Python `int()` applied to a rational (truncation toward zero). -/
def pyTruncInt (q : ℚ) : ℤ :=
  if 0 ≤ q then q.floor else -((-q).floor)

/-- `validate_input` (content_planner.py:35-51): rejects a row with both
columns B and C set, and a row whose column E fails to parse as
comma-separated integers or references a row number outside
`2 .. len(df) + 1`.  The accompanying Russian error message is dropped;
only the boolean verdict is modelled. -/
def validate_input (df : List Row) : Bool :=
  df.all fun row =>
    if row.B.isSome && row.C.isSome then false
    else
      match row.E with
      | none => true
      | some s =>
        match parseAlternation s with
        | none => false
        | some xs => !(xs.any fun x => x < 2 || x > (df.length : ℤ) + 1)

/-- `all_days[w][d]['posts']`, with out-of-range indices giving `[]`. -/
def getDay (s : AllDays) (w d : ℕ) : List Post :=
  (s.getD w []).getD d []

/-- Replace day `d` of a week by applying `f`; out of range is a no-op. -/
def updWeek (f : List Post → List Post) : ℕ → List (List Post) → List (List Post)
  | _, [] => []
  | 0, ps :: rest => f ps :: rest
  | d + 1, ps :: rest => ps :: updWeek f d rest

/-- Apply `f` to day `(w, d)` of the grid; out of range is a no-op. -/
def updDays (f : List Post → List Post) : ℕ → ℕ → AllDays → AllDays
  | _, _, [] => []
  | 0, d, wk :: rest => updWeek f d wk :: rest
  | w + 1, d, wk :: rest => wk :: updDays f w d rest

/-- Whether some post on day `(w, d)` has title `t`. -/
def titleOnDay (s : AllDays) (w d : ℕ) (t : String) : Bool :=
  (getDay s w d).any fun p => p.title == t

/-- The week indices scanned by `can_add_post`:
`range(max(0, week_idx-1), min(len(all_days), week_idx+2))`. -/
def neighborWeeks (n w : ℕ) : List ℕ :=
  (List.range n).filter fun x => w ≤ x + 1 && x ≤ w + 1

/-- `abs((check_day - current_day).days) <= 2` for days `(w', d')` and
`(w, d)`; dates are the offsets `7 * week + day`. -/
def withinTwo (w d w' d' : ℕ) : Bool :=
  ((7 * w' + d' : ℤ) - (7 * w + d)).natAbs ≤ 2

/-- `can_add_post` (content_planner.py:53-80): the target day must not
already hold the title, no day within a ±2-day window may hold it, and
for monthly posts no day of the adjacent weeks may hold it. -/
def can_add_post (s : AllDays) (w d : ℕ) (t : String) (isMonthly : Bool) : Bool :=
  if titleOnDay s w d t then false
  else if (neighborWeeks s.length w).any (fun w' =>
      (List.range 7).any fun d' => withinTwo w d w' d' && titleOnDay s w' d' t) then false
  else if isMonthly && (neighborWeeks s.length w).any (fun w' =>
      (List.range 7).any fun d' => titleOnDay s w' d' t) then false
  else true

/-- `get_day_load`: number of posts with a truthy (non-empty) title. -/
def get_day_load (s : AllDays) (w d : ℕ) : ℕ :=
  ((getDay s w d).filter fun p => p.title != "").length

/-- `get_week_load`: total load of the 7 days of week `w`. -/
def get_week_load (s : AllDays) (w : ℕ) : ℕ :=
  ((List.range 7).map fun d => get_day_load s w d).sum

/-- `day_loads`: the days of week `w` that still have a free slot
(`len(posts) < posts_per_day`), paired with their load, in day order. -/
def dayLoads (s : AllDays) (w ppd : ℕ) : List (ℕ × ℕ) :=
  (List.range 7).filterMap fun d =>
    if (getDay s w d).length < ppd then some (d, get_day_load s w d) else none

/-- Outcome of one iteration of a placement `while` loop. -/
inductive StepRes where
  | halt
  | noPlace
  | placed (s : AllDays)

/-- One iteration of the weekly placement loop (content_planner.py:248-275
and 288-315): list the days with room, stop if there are none, sort them
stably by load, and place the post on the first day accepted by
`can_add_post`. -/
def weeklyStep (s : AllDays) (week ppd : ℕ) (t link : String) : StepRes :=
  let dl := dayLoads s week ppd
  if dl.isEmpty then .halt
  else
    let sorted := pySort (fun a b => a.2 ≤ b.2) dl
    match sorted.find? (fun p => can_add_post s week p.1 t false) with
    | some p => .placed (updDays (· ++ [⟨t, link⟩]) week p.1 s)
    | none => .noPlace

/-- The weekly placement `while` loop, with fuel (see module comment):
run while `placed_count < frequency and attempts < 50`. -/
def placeWeeklyLoop (week ppd : ℕ) (t link : String) (target : ℕ) :
    ℕ → ℕ → ℕ → AllDays → AllDays
  | _, _, 0, s => s
  | placed, attempts, fuel + 1, s =>
    if placed < target ∧ attempts < 50 then
      match weeklyStep s week ppd t link with
      | .halt => s
      | .placed s' => placeWeeklyLoop week ppd t link target (placed + 1) attempts fuel s'
      | .noPlace => placeWeeklyLoop week ppd t link target placed (attempts + 1) fuel s
    else s

/-- Place a post up to `target` times in week `week`. -/
def placeWeekly (s : AllDays) (week ppd : ℕ) (t link : String) (target : ℕ) : AllDays :=
  placeWeeklyLoop week ppd t link target 0 0 (target + 50) s

/-- The weeks of month `month`: `range(month*4, min((month+1)*4, weeks))`. -/
def monthWeeks (month weeks : ℕ) : List ℕ :=
  List.range' (4 * month) (min (4 * month + 4) weeks - 4 * month)

/-- Scan candidate weeks in the given (load-sorted) order; within each
week try its load-sorted days and return the first day accepted by the
monthly `can_add_post` check. -/
def monthlyFind (s : AllDays) (ppd : ℕ) (t : String) : List ℕ → Option (ℕ × ℕ)
  | [] => none
  | w :: rest =>
    let sorted := pySort (fun a b => a.2 ≤ b.2) (dayLoads s w ppd)
    match sorted.find? (fun p => can_add_post s w p.1 t true) with
    | some p => some (w, p.1)
    | none => monthlyFind s ppd t rest

/-- One iteration of the monthly placement loop
(content_planner.py:339-383 and 398-442): stop if the month has no weeks,
otherwise sort the month's weeks by load and place on the first accepted
(week, day). -/
def monthlyStep (s : AllDays) (month weeks ppd : ℕ) (t link : String) : StepRes :=
  let wl := (monthWeeks month weeks).map fun w => (w, get_week_load s w)
  if wl.isEmpty then .halt
  else
    let sortedW := pySort (fun a b => a.2 ≤ b.2) wl
    match monthlyFind s ppd t (sortedW.map (·.1)) with
    | some wd => .placed (updDays (· ++ [⟨t, link⟩]) wd.1 wd.2 s)
    | none => .noPlace

/-- The monthly placement `while` loop, with fuel. -/
def placeMonthlyLoop (month weeks ppd : ℕ) (t link : String) (target : ℕ) :
    ℕ → ℕ → ℕ → AllDays → AllDays
  | _, _, 0, s => s
  | placed, attempts, fuel + 1, s =>
    if placed < target ∧ attempts < 50 then
      match monthlyStep s month weeks ppd t link with
      | .halt => s
      | .placed s' => placeMonthlyLoop month weeks ppd t link target (placed + 1) attempts fuel s'
      | .noPlace => placeMonthlyLoop month weeks ppd t link target placed (attempts + 1) fuel s
    else s

/-- Place a post up to `target` times in month `month`. -/
def placeMonthly (s : AllDays) (month weeks ppd : ℕ) (t link : String) (target : ℕ) : AllDays :=
  placeMonthlyLoop month weeks ppd t link target 0 0 (target + 50) s

/-- `post_info` (content_planner.py:129-168): title, link, 1-based Excel
row number, integer frequency and intervals.  `isWeekly` records which
kind of dict was built — a weekly one carries the keys `placed_in_week` /
`interval_weeks`, a monthly one `placed_in_month` / `interval_months`.
The counter *values* only feed the console warnings printed at lines
444-458, but the key *presence* matters: the update
`post['placed_in_week'][week_idx] += 1` (line 269) raises `KeyError` on a
monthly member selected by a weekly group, and `post['interval_months']`
(line 372) raises on a weekly member selected by a monthly group; those
crash paths are modelled in the phases below. -/
structure PostInfo where
  title : String
  link : String
  rowNumber : ℤ
  frequency : ℤ
  isWeekly : Bool := true
  intervalWeeks : ℕ := 1
  intervalMonths : ℕ := 1
  inGroup : Bool := false
deriving DecidableEq, Repr, Inhabited

/-- An alternation group (content_planner.py:186-193), keyed by the
sorted member row numbers.  `current_index` is not modelled: it is set to
0 at creation and never read (the rotating member is recomputed from the
period index).  `posts` is filled by the second pass. -/
structure AltGroup where
  key : List ℤ
  posts : List PostInfo := []
  weekly : Bool
  frequency : ℤ
  intervalWeeks : ℕ
  intervalMonths : ℕ
deriving DecidableEq, Repr

/-- The rotating member index for a weekly group in week `week`
(content_planner.py:241): `week_idx // interval_weeks % len(posts)`. -/
def weeklyGroupIndex (week intervalWeeks n : ℕ) : ℕ :=
  week / intervalWeeks % n

/-- The rotating member index for a monthly group in month `month`
(content_planner.py:332): `month % len(posts)` — the month index is not
divided by the interval. -/
def monthlyGroupIndex (month n : ℕ) : ℕ :=
  month % n

/-- The weekly `post_info` built from column B (content_planner.py:136-151). -/
def mkWeeklyPost (title link : String) (rn : ℤ) (f : ℚ) : PostInfo :=
  if f = mkRat 1 2 then
    { title := title, link := link, rowNumber := rn, frequency := 1,
      isWeekly := true, intervalWeeks := 2 }
  else
    { title := title, link := link, rowNumber := rn, frequency := pyTruncInt f,
      isWeekly := true, intervalWeeks := 1 }

/-- The monthly `post_info` built from column C (content_planner.py:153-168). -/
def mkMonthlyPost (title link : String) (rn : ℤ) (f : ℚ) : PostInfo :=
  if f = mkRat 1 2 then
    { title := title, link := link, rowNumber := rn, frequency := 1,
      isWeekly := false, intervalMonths := 2 }
  else
    { title := title, link := link, rowNumber := rn, frequency := pyTruncInt f,
      isWeekly := false, intervalMonths := 1 }

/-- Intermediate state of the first pass over the rows: weekly posts,
monthly posts, alternation groups (in creation order). -/
structure BuildAcc where
  weekly : List PostInfo := []
  monthly : List PostInfo := []
  groups : List AltGroup := []

/-- First pass for one row (content_planner.py:125-193).  `none` models
the exceptions `get_post_schedule` itself can raise on unvalidated input:
a `ValueError` from re-parsing column E (line 172), and the
`int(float('nan'))` crash when a row declares alternation but has neither
a weekly nor a monthly frequency (lines 178-190). -/
def buildRow (acc : BuildAcc) (idx : ℕ) (row : Row) : Option BuildAcc := do
  let rn : ℤ := (idx : ℤ) + 2
  let acc :=
    match row.B with
    | some f => { acc with weekly := acc.weekly ++ [mkWeeklyPost row.title row.link rn f] }
    | none =>
      match row.C with
      | some f => { acc with monthly := acc.monthly ++ [mkMonthlyPost row.title row.link rn f] }
      | none => acc
  match row.E with
  | none => pure acc
  | some s => do
    let refs ← parseAlternation s
    let key := pySort (fun a b => a ≤ b) (rn :: refs)
    if acc.groups.any (fun g => g.key = key) then pure acc
    else do
      let isWeekly := row.B.isSome
      let fv ← if isWeekly then row.B else row.C
      let (interval, fv) : ℕ × ℚ := if fv = mkRat 1 2 then (2, 1) else (1, fv)
      let g : AltGroup :=
        { key := key, weekly := isWeekly, frequency := pyTruncInt fv
          intervalWeeks := if isWeekly then interval else 1
          intervalMonths := if !isWeekly then interval else 1 }
      pure { acc with groups := acc.groups ++ [g] }

/-- Fold the first pass over the enumerated rows. -/
def buildRows (df : List Row) : Option BuildAcc :=
  (go 0 df) {} where
  go (idx : ℕ) : List Row → BuildAcc → Option BuildAcc
    | [], acc => some acc
    | row :: rest, acc => do
      let acc ← buildRow acc idx row
      go (idx + 1) rest acc

/-- Second pass (content_planner.py:196-201): mark posts that belong to a
group and collect each group's member posts (in `weekly_posts +
monthly_posts` order). -/
def buildPosts (df : List Row) : Option (List PostInfo × List PostInfo × List AltGroup) := do
  let acc ← buildRows df
  let tag (p : PostInfo) : PostInfo :=
    { p with inGroup := acc.groups.any fun g => p.rowNumber ∈ g.key }
  let fill (g : AltGroup) : AltGroup :=
    { g with posts := ((acc.weekly ++ acc.monthly).filter fun p => p.rowNumber ∈ g.key).map tag }
  pure (acc.weekly.map tag, acc.monthly.map tag, acc.groups.map fill)

/-- A left fold whose step can fail: the first failing step aborts the
whole fold (an uncaught Python exception unwinds the surrounding loops). -/
def optFoldl (f : AllDays → α → Option AllDays) : List α → AllDays → Option AllDays
  | [], s => some s
  | x :: xs, s =>
    match f s x with
    | none => none
    | some s' => optFoldl f xs s'

/-- The weekly-group branch for one group and one week
(content_planner.py:232-275).  After every successful placement the code
runs `post['placed_in_week'][week_idx] += 1` (line 269); when the rotation
selects a *monthly* member of the group, that dict has no `placed_in_week`
key and the first successful placement raises `KeyError`, aborting the
run.  The loop's schedule state only changes on a successful placement, so
the crash fires exactly when the loop is entered (positive frequency) and
its first iteration places. -/
def weeklyGroupStep (ppd week : ℕ) (s : AllDays) (g : AltGroup) : Option AllDays :=
  if g.weekly then
    if g.intervalWeeks = 2 ∧ week % 2 ≠ 0 then some s
    else
      let p := g.posts.getD (weeklyGroupIndex week g.intervalWeeks g.posts.length) default
      if p.isWeekly then some (placeWeekly s week ppd p.title p.link g.frequency.toNat)
      else
        match g.frequency.toNat, weeklyStep s week ppd p.title p.link with
        | _ + 1, .placed _ => none
        | _, _ => some s
  else some s

/-- The weekly pass for one week (content_planner.py:230-315): alternation
groups first (in creation order), then standalone weekly posts (which all
carry `placed_in_week`, so they cannot crash). -/
def weeklyPhaseWeek (gs : List AltGroup) (wposts : List PostInfo) (ppd week : ℕ)
    (s : AllDays) : Option AllDays := do
  let s1 ← optFoldl (weeklyGroupStep ppd week) gs s
  pure (wposts.foldl (fun s p =>
    if !p.inGroup then
      if p.intervalWeeks = 2 ∧ week % 2 ≠ 0 then s
      else placeWeekly s week ppd p.title p.link p.frequency.toNat
    else s) s1)

/-- All weekly placement (content_planner.py:230-315). -/
def weeklyPhase (gs : List AltGroup) (wposts : List PostInfo) (ppd weeks : ℕ)
    (s : AllDays) : Option AllDays :=
  optFoldl (fun s week => weeklyPhaseWeek gs wposts ppd week s) (List.range weeks) s

/-- The monthly-group branch for one group and one month
(content_planner.py:325-383).  After every successful placement the code
reads `post['interval_months']` (line 372); when the rotation selects a
*weekly* member of the group, that dict has no `interval_months` key and
the first successful placement raises `KeyError`, aborting the run. -/
def monthlyGroupStep (weeks ppd month : ℕ) (s : AllDays) (g : AltGroup) : Option AllDays :=
  if !g.weekly then
    if g.intervalMonths = 2 ∧ month % 2 ≠ 0 then some s
    else
      let p := g.posts.getD (monthlyGroupIndex month g.posts.length) default
      if !p.isWeekly then some (placeMonthly s month weeks ppd p.title p.link g.frequency.toNat)
      else
        match g.frequency.toNat, monthlyStep s month weeks ppd p.title p.link with
        | _ + 1, .placed _ => none
        | _, _ => some s
  else some s

/-- The monthly pass for one month (content_planner.py:318-442): groups
first, then standalone monthly posts (which all carry `interval_months`,
so they cannot crash). -/
def monthlyPhaseMonth (gs : List AltGroup) (mposts : List PostInfo) (ppd weeks month : ℕ)
    (s : AllDays) : Option AllDays := do
  let s1 ← optFoldl (monthlyGroupStep weeks ppd month) gs s
  pure (mposts.foldl (fun s p =>
    if !p.inGroup then
      if p.intervalMonths = 2 ∧ month % 2 ≠ 0 then s
      else placeMonthly s month weeks ppd p.title p.link p.frequency.toNat
    else s) s1)

/-- All monthly placement, over months `0 .. weeks // 4` (content_planner.py:318). -/
def monthlyPhase (gs : List AltGroup) (mposts : List PostInfo) (ppd weeks : ℕ)
    (s : AllDays) : Option AllDays :=
  optFoldl (fun s month => monthlyPhaseMonth gs mposts ppd weeks month s)
    (List.range (weeks / 4 + 1)) s

/-- One move attempt of the balancing pass (content_planner.py:469-473):
the first post of day `(w, d)` with a truthy title that `can_add_post`
accepts on day `(w, adj)` is appended there and removed from `(w, d)`. -/
def tryMoveOne (s : AllDays) (w d adj : ℕ) : AllDays :=
  match (getDay s w d).find? (fun p => p.title != "" && can_add_post s w adj p.title false) with
  | some p => updDays (·.erase p) w d (updDays (· ++ [p]) w adj s)
  | none => s

/-- The balancing step for one day (content_planner.py:463-473): if it
holds more than 2 (titled) posts, try to move one post to each empty
immediate weekday neighbour. -/
def balanceDay (s : AllDays) (w d : ℕ) : AllDays :=
  if get_day_load s w d > 2 then
    ((List.range 7).filter fun (x : ℕ) => ((x : ℤ) - (d : ℤ)).natAbs == 1).foldl
      (fun s adj => if get_day_load s w adj = 0 then tryMoveOne s w d adj else s) s
  else s

/-- The balancing pass (content_planner.py:460-473). -/
def balancePass (weeks : ℕ) (s : AllDays) : AllDays :=
  (List.range weeks).foldl (fun s w => (List.range 7).foldl (fun s d => balanceDay s w d) s) s

/-- `post_slots` (content_planner.py:114). -/
def post_slots : List String := ["08:00", "10:00", "12:00", "14:00", "16:00"]

/-- One flattened output record (date offset, time, title, link). -/
structure Entry where
  day : ℕ
  time : String
  title : String
  link : String
deriving DecidableEq, Repr

/-- A day's posts padded with empty slots up to 5 (content_planner.py:480-484). -/
def padDay (ps : List Post) : List Post :=
  ps ++ List.replicate (5 - ps.length) ⟨"", ""⟩

/-- Emit the padded posts of one day in slot order; `none` models the
`IndexError` raised by `post_slots[i]` when a day holds more than 5 posts. -/
def flattenSlots (date : ℕ) : ℕ → List Post → Option (List Entry)
  | _, [] => some []
  | i, p :: rest =>
    match post_slots[i]? with
    | none => none
    | some tm => (flattenSlots date (i + 1) rest).map (fun r => ⟨date, tm, p.title, p.link⟩ :: r)

/-- Flatten one day (content_planner.py:478-493). -/
def flattenDay (w d : ℕ) (ps : List Post) : Option (List Entry) :=
  flattenSlots (7 * w + d) 0 (padDay ps)

/-- Flatten the days of week `w`. -/
def flattenWeek (w : ℕ) : ℕ → List (List Post) → Option (List Entry)
  | _, [] => some []
  | d, ps :: rest => do
    let b ← flattenDay w d ps
    let r ← flattenWeek w (d + 1) rest
    pure (b ++ r)

/-- Flatten the whole grid in chronological order (content_planner.py:476-495). -/
def flattenWeeks : ℕ → AllDays → Option (List Entry)
  | _, [] => some []
  | w, wk :: rest => do
    let b ← flattenWeek w 0 wk
    let r ← flattenWeeks (w + 1) rest
    pure (b ++ r)

/-- The freshly created grid: `weeks` weeks of 7 empty days
(content_planner.py:207-217); dates are derived from the indices. -/
def initGrid (weeks : ℕ) : AllDays :=
  List.replicate weeks (List.replicate 7 [])

/-- `get_post_schedule` (content_planner.py:112-495): build posts and
groups, place weekly then monthly posts, run the balancing pass, and
flatten.  `none` models an uncaught Python exception (see `buildRow`,
`weeklyGroupStep`, `monthlyGroupStep` and `flattenSlots`). -/
def get_post_schedule (df : List Row) (weeks ppd : ℕ) : Option (List Entry) := do
  let (wposts, mposts, gs) ← buildPosts df
  let s1 ← weeklyPhase gs wposts ppd weeks (initGrid weeks)
  let s2 ← monthlyPhase gs mposts ppd weeks s1
  let s3 := balancePass weeks s2
  flattenWeeks 0 s3

/-- The `main` flow around the solver (content_planner.py:654-704):
validation runs first and aborts the run — no schedule at all — when it
fails. -/
def plan (df : List Row) (weeks ppd : ℕ) : Option (List Entry) :=
  if validate_input df then get_post_schedule df weeks ppd else none

/-- `get_post_schedule` with the balancing pass removed, for the
refinement comparison of the balancing pass (it is a no-op, proved
below). -/
def get_post_schedule_noBalance (df : List Row) (weeks ppd : ℕ) : Option (List Entry) := do
  let (wposts, mposts, gs) ← buildPosts df
  let s1 ← weeklyPhase gs wposts ppd weeks (initGrid weeks)
  let s2 ← monthlyPhase gs mposts ppd weeks s1
  flattenWeeks 0 s2

end CP

namespace SG

/-- One message of the catalog, as consumed by
`schedule_generator_new.py`: id, title, `frequency_days`, and
`do_not_schedule_same_day_with` (the conflict id list).  Fields not used
by the placement logic (text, media, frequency label) are omitted. -/
structure Msg where
  id : ℤ
  title : String
  freqDays : ℤ
  conflicts : List ℤ
deriving DecidableEq, Repr, Inhabited

/-- The `schedule` dict: association list from a date (an integer day
number) to the day's entry list; `none` is an explicitly empty slot
(`{'message_id': None, 'message': None}`). -/
abbrev Sched := List (ℤ × List (Option Msg))

/-- `date_key in schedule` / `schedule[date_key]` as an optional lookup. -/
def lookupDay (sch : Sched) (dt : ℤ) : Option (List (Option Msg)) :=
  (sch.find? fun p => p.1 == dt).map (·.2)

/-- `schedule.get(date_key, [])`. -/
def dayEntries (sch : Sched) (dt : ℤ) : List (Option Msg) :=
  (lookupDay sch dt).getD []

/-- `schedule[date_key].append(e)`. -/
def appendEntry (sch : Sched) (dt : ℤ) (e : Option Msg) : Sched :=
  sch.map fun p => if p.1 == dt then (p.1, p.2 ++ [e]) else p

/-- The `message_id` of an entry (`None` for an empty slot). -/
def entryId (e : Option Msg) : Option ℤ := e.map (·.id)

/-- `can_add_post_to_day` (schedule_generator_new.py:39-86): reject when
the day already holds this message id, when the day holds an id from the
*added* message's conflict list, or when the same id sits within ±2 days. -/
def can_add_post_to_day (sch : Sched) (dt : ℤ) (mid : ℤ) (conflicts : List ℤ) : Bool :=
  let dayOk :=
    match lookupDay sch dt with
    | some posts =>
      if posts.any (fun e => entryId e == some mid) then false
      else if conflicts.any (fun c => posts.any fun e => entryId e == some c) then false
      else true
    | none => true
  if !dayOk then false
  else ([-2, -1, 1, 2] : List ℤ).all fun off =>
    match lookupDay sch (dt + off) with
    | some posts => !(posts.any fun e => entryId e == some mid)
    | none => true

/-- `get_day_post_count` (schedule_generator_new.py:89-92). -/
def get_day_post_count (sch : Sched) (dt : ℤ) : ℕ :=
  (dayEntries sch dt).length

/-- `calculate_message_priority` (schedule_generator_new.py:95-131).
The Python function returns a float whose value is always a (small)
integer; it is modelled over `ℤ`.  `lastSent` is the send-history ledger
`db.get_last_sent_date`, `cur` the planning date (`week_dates[0]`), both
as integer day numbers. -/
def calculate_message_priority (lastSent : ℤ → Option ℤ) (cur : ℤ) (m : Msg) : ℤ :=
  match lastSent m.id with
  | none => 100
  | some d =>
    let daysPassed := cur - d
    if daysPassed < m.freqDays then 0
    else if daysPassed = m.freqDays then 50
    else 50 + min ((daysPassed - m.freqDays) * 5) 50

/-- The priority ranking (schedule_generator_new.py:161-174): keep the
messages with positive priority, stably sorted by descending priority. -/
def rankedMessages (msgs : List Msg) (lastSent : ℤ → Option ℤ) (cur : ℤ) : List (Msg × ℤ) :=
  CP.pySort (fun a b => b.2 ≤ a.2)
    ((msgs.map fun m => (m, calculate_message_priority lastSent cur m)).filter fun x => 0 < x.2)

/-- The weekly target count derived from `frequency_days`
(schedule_generator_new.py:184-193).  `7 // freq_days` is Python floor
division (`Int.fdiv`); `freq_days = 0` raises `ZeroDivisionError` in
Python, so theorems about runs assume nonzero frequencies. -/
def weeklyTarget (fd : ℤ) : ℤ :=
  if fd ≤ 3 then Int.fdiv 7 fd
  else if fd = 7 then 1
  else if fd = 14 then 1
  else if fd = 21 then 1
  else 0

/-- One run of the first-pass placement loop for one message
(schedule_generator_new.py:215-262), with fuel (the attempt counter grows
on every iteration, so fuel 51 is never exhausted).  `pick k` models
`random.choice` draw number `k`: the chosen element is
`l[pick k % len(l)]`, which ranges over exactly the possible draws.
Arguments after the fixed ones: fuel, placed, attempts, pick counter,
schedule; returns the schedule and the next pick counter. -/
def pass1Go (pick : ℕ → ℕ) (dates : List ℤ) (ppd : ℕ) (m : Msg) (target : ℕ) :
    ℕ → ℕ → ℕ → ℕ → Sched → Sched × ℕ
  | 0, _, _, ctr, sched => (sched, ctr)
  | fuel + 1, placed, attempts, ctr, sched =>
    if placed < target ∧ attempts < 50 then
      let dl := dates.filterMap fun dt =>
        if get_day_post_count sched dt < ppd then
          if can_add_post_to_day sched dt m.id m.conflicts then
            some (dt, get_day_post_count sched dt)
          else none
        else none
      if dl.isEmpty then (sched, ctr)
      else
        let sorted := CP.pySort (fun a b => a.2 ≤ b.2) dl
        let minLoad := (sorted.headD (0, 0)).2
        let daysMin := (sorted.filter fun p => p.2 == minLoad).map (·.1)
        let best := daysMin.getD (pick ctr % daysMin.length) 0
        pass1Go pick dates ppd m target fuel (placed + 1) (attempts + 1)
          (ctr + 1) (appendEntry sched best (some m))
    else (sched, ctr)

/-- First pass (schedule_generator_new.py:200-265): for each ranked
message compute its weekly target and run the placement loop; a zero
target skips the message. -/
def pass1 (pick : ℕ → ℕ) (dates : List ℤ) (ppd : ℕ) (ranked : List (Msg × ℤ))
    (sched : Sched) (ctr : ℕ) : Sched × ℕ :=
  ranked.foldl (fun acc md =>
    let target := (weeklyTarget md.1.freqDays).toNat
    if target = 0 then acc
    else pass1Go pick dates ppd md.1 target 51 0 0 acc.2 acc.1) (sched, ctr)

/-- Fill the remaining slots of one day (schedule_generator_new.py:276-304):
for each slot, shuffle the full message pool (`shuf k` models shuffle
number `k`) and place the first message accepted by
`can_add_post_to_day`; if none fits append an explicitly empty slot. -/
def pass2Fill (shuf : ℕ → List Msg → List Msg) (msgs : List Msg) (dt : ℤ) :
    ℕ → Sched → ℕ → Sched × ℕ
  | 0, sched, ctr => (sched, ctr)
  | k + 1, sched, ctr =>
    let cands := shuf ctr msgs
    match cands.find? (fun m => can_add_post_to_day sched dt m.id m.conflicts) with
    | some m => pass2Fill shuf msgs dt k (appendEntry sched dt (some m)) (ctr + 1)
    | none => pass2Fill shuf msgs dt k (appendEntry sched dt none) (ctr + 1)

/-- Second pass (schedule_generator_new.py:267-304): top every day up to
`posts_per_day` entries. -/
def pass2 (shuf : ℕ → List Msg → List Msg) (msgs : List Msg) (ppd : ℕ)
    (dates : List ℤ) (sched : Sched) (ctr : ℕ) : Sched × ℕ :=
  dates.foldl (fun acc dt =>
    let current := get_day_post_count acc.1 dt
    if current < ppd then pass2Fill shuf msgs dt (ppd - current) acc.1 acc.2 else acc)
    (sched, ctr)

/-- `POSTING_TIMES` (config.py:37-41): three slots, so
`posts_per_day = len(POSTING_TIMES) = 3`. -/
def postingTimes : List (ℕ × ℕ) := [(11, 0), (13, 0), (16, 0)]

/-- One record of `planned_posts` (schedule_generator_new.py:330-357):
the date, the slot index into `POSTING_TIMES`, and the message (or `none`
for an explicitly empty slot).  The derived presentation fields (day
name, media counts, title string `'—'`) are omitted. -/
structure OutEntry where
  date : ℤ
  timeIdx : ℕ
  msg : Option Msg
deriving DecidableEq, Repr

/-- Chronological comparison of output entries (`x['datetime']`). -/
def dtLe (a b : OutEntry) : Bool :=
  a.date < b.date || (a.date == b.date && a.timeIdx ≤ b.timeIdx)

/-- Flatten the schedule into time-slotted records
(schedule_generator_new.py:306-360): per day, shuffle the entries
(`dayShuf k` models the shuffle of day number `k`), enumerate them
against `POSTING_TIMES` (entries beyond the slot count are dropped by the
`break`), then sort everything chronologically. -/
def flattenSG (dayShuf : ℕ → List (Option Msg) → List (Option Msg)) (dates : List ℤ)
    (sched : Sched) : List OutEntry :=
  CP.pySort dtLe
    (((List.range dates.length).zip dates).flatMap fun kdt =>
      let posts := dayShuf kdt.1 (dayEntries sched kdt.2)
      ((List.range postingTimes.length).zip posts).map fun ip =>
        ⟨kdt.2, ip.1, ip.2⟩)

/-- `get_planned_posts_for_week_smart` (schedule_generator_new.py:134-364).
`start` is the Monday `week_dates[0]` as an integer day number; `msgs` is
`selector.messages`; `lastSent` the ledger.  The three oracles model the
module's random draws. -/
def get_planned_posts_for_week_smart (msgs : List Msg) (lastSent : ℤ → Option ℤ)
    (start : ℤ) (pick : ℕ → ℕ) (shuf : ℕ → List Msg → List Msg)
    (dayShuf : ℕ → List (Option Msg) → List (Option Msg)) : List OutEntry :=
  let dates := (List.range 7).map fun i => start + (i : ℤ)
  let ppd := postingTimes.length
  if msgs.isEmpty then []
  else
    let sched0 : Sched := dates.map fun dt => (dt, [])
    let ranked := rankedMessages msgs lastSent start
    let s1 := (pass1 pick dates ppd ranked sched0 0).1
    let s2 := (pass2 shuf msgs ppd dates s1 0).1
    flattenSG dayShuf dates s2

end SG

/-! ### Lemmas about the stable sort -/

namespace CP

theorem pyInsert_perm (le : α → α → Bool) (a : α) (l : List α) :
    (pyInsert le a l).Perm (a :: l) := by
  induction l with
  | nil => simp [pyInsert]
  | cons b bs ih =>
    simp only [pyInsert]
    split
    · exact (ih.cons b).trans (List.Perm.swap a b bs)
    · exact List.Perm.refl _

theorem pySortAux_perm (le : α → α → Bool) (l acc : List α) :
    (l.foldl (fun acc x => pyInsert le x acc) acc).Perm (acc ++ l) := by
  induction l generalizing acc with
  | nil => simp
  | cons x xs ih =>
    refine (ih (pyInsert le x acc)).trans ?_
    have h1 : (pyInsert le x acc ++ xs).Perm ((x :: acc) ++ xs) :=
      (pyInsert_perm le x acc).append_right xs
    refine h1.trans ?_
    simpa using (@List.perm_middle _ x acc xs).symm

theorem pySort_perm (le : α → α → Bool) (l : List α) : (pySort le l).Perm l := by
  simpa using pySortAux_perm le l []

theorem mem_pySort {le : α → α → Bool} {l : List α} {a : α} :
    a ∈ pySort le l ↔ a ∈ l :=
  (pySort_perm le l).mem_iff

/-! ### Lemmas about the grid accessors -/

@[simp] theorem updWeek_nil (f : List Post → List Post) (d : ℕ) : updWeek f d [] = [] := by
  cases d <;> rfl

@[simp] theorem updDays_nil (f : List Post → List Post) (w d : ℕ) : updDays f w d [] = [] := by
  cases w <;> rfl

@[simp] theorem length_updWeek (f : List Post → List Post) (d : ℕ) (wk : List (List Post)) :
    (updWeek f d wk).length = wk.length := by
  induction wk generalizing d with
  | nil => simp
  | cons ps rest ih => cases d <;> simp [updWeek, ih]

@[simp] theorem length_updDays (f : List Post → List Post) (w d : ℕ) (s : AllDays) :
    (updDays f w d s).length = s.length := by
  induction s generalizing w with
  | nil => simp
  | cons wk rest ih => cases w <;> simp [updDays, ih]

theorem getD_updWeek_ne (f : List Post → List Post) {d d' : ℕ} (h : d ≠ d')
    (wk : List (List Post)) : (updWeek f d wk).getD d' [] = wk.getD d' [] := by
  induction wk generalizing d d' with
  | nil => simp
  | cons ps rest ih =>
    cases d with
    | zero => cases d' with
      | zero => exact absurd rfl h
      | succ d' => simp [updWeek]
    | succ d => cases d' with
      | zero => simp [updWeek]
      | succ d' =>
        simp only [updWeek, List.getD_cons_succ]
        exact ih (fun hh => h (by omega))

theorem getD_updWeek_self (f : List Post → List Post) {d : ℕ} (wk : List (List Post))
    (h : d < wk.length) : (updWeek f d wk).getD d [] = f (wk.getD d []) := by
  induction wk generalizing d with
  | nil => simp at h
  | cons ps rest ih =>
    cases d with
    | zero => simp [updWeek]
    | succ d =>
      simp only [updWeek, List.getD_cons_succ]
      exact ih (by simpa using h)

theorem updWeek_of_ge (f : List Post → List Post) {d : ℕ} (wk : List (List Post))
    (h : wk.length ≤ d) : updWeek f d wk = wk := by
  induction wk generalizing d with
  | nil => simp
  | cons ps rest ih =>
    cases d with
    | zero => simp at h
    | succ d =>
      simp only [updWeek, List.cons.injEq, true_and]
      exact ih (by simpa using h)

theorem updDays_of_ge (f : List Post → List Post) {w : ℕ} (d : ℕ) (s : AllDays)
    (h : s.length ≤ w) : updDays f w d s = s := by
  induction s generalizing w with
  | nil => simp
  | cons wk rest ih =>
    cases w with
    | zero => simp at h
    | succ w =>
      simp only [updDays, List.cons.injEq, true_and]
      exact ih (by simpa using h)

theorem updDays_of_inner_ge (f : List Post → List Post) {w d : ℕ} (s : AllDays)
    (h : (s.getD w []).length ≤ d) : updDays f w d s = s := by
  induction s generalizing w with
  | nil => simp
  | cons wk rest ih =>
    cases w with
    | zero =>
      simp only [List.getD_cons_zero] at h
      simp [updDays, updWeek_of_ge f wk h]
    | succ w =>
      simp only [List.getD_cons_succ] at h
      simp only [updDays, List.cons.injEq, true_and]
      exact ih h

theorem getDay_updDays_ne (f : List Post → List Post) {w d w' d' : ℕ}
    (h : ¬(w = w' ∧ d = d')) (s : AllDays) :
    getDay (updDays f w d s) w' d' = getDay s w' d' := by
  induction s generalizing w w' with
  | nil => simp [getDay]
  | cons wk rest ih =>
    cases w with
    | zero =>
      cases w' with
      | zero =>
        have hd : d ≠ d' := fun hh => h ⟨rfl, hh⟩
        simp only [updDays, getDay, List.getD_cons_zero]
        exact getD_updWeek_ne f hd wk
      | succ w' => simp [updDays, getDay]
    | succ w =>
      cases w' with
      | zero => simp [updDays, getDay]
      | succ w' =>
        have hne : ¬(w = w' ∧ d = d') := fun hh => h ⟨by omega, hh.2⟩
        simp only [updDays, getDay, List.getD_cons_succ]
        exact ih hne

theorem getDay_updDays_self (f : List Post → List Post) {w d : ℕ} {s : AllDays}
    (hw : w < s.length) (hd : d < (s.getD w []).length) :
    getDay (updDays f w d s) w d = f (getDay s w d) := by
  induction s generalizing w with
  | nil => simp at hw
  | cons wk rest ih =>
    cases w with
    | zero =>
      simp only [List.getD_cons_zero] at hd
      simp only [updDays, getDay, List.getD_cons_zero]
      exact getD_updWeek_self f wk hd
    | succ w =>
      simp only [List.getD_cons_succ] at hd
      simp only [updDays, getDay, List.getD_cons_succ]
      exact ih (by simpa using hw) hd

/-- Every day of the grid after an append update is either unchanged or the
updated day itself with the post appended. -/
theorem getDay_updDays_append (s : AllDays) (w d : ℕ) (p : Post) (w' d' : ℕ) :
    getDay (updDays (· ++ [p]) w d s) w' d' = getDay s w' d' ∨
      (w' = w ∧ d' = d ∧
        getDay (updDays (· ++ [p]) w d s) w' d' = getDay s w d ++ [p]) := by
  by_cases h : w = w' ∧ d = d'
  · obtain ⟨rfl, rfl⟩ := h
    by_cases hw : w < s.length
    · by_cases hd : d < (s.getD w []).length
      · exact Or.inr ⟨rfl, rfl, getDay_updDays_self _ hw hd⟩
      · rw [updDays_of_inner_ge _ _ (by omega)]
        exact Or.inl rfl
    · rw [updDays_of_ge _ _ _ (by omega)]
      exact Or.inl rfl
  · exact Or.inl (getDay_updDays_ne _ h s)

/-- A nonempty day lies inside the grid. -/
theorem lt_length_of_mem_getDay {s : AllDays} {w d : ℕ} {p : Post}
    (h : p ∈ getDay s w d) : w < s.length := by
  by_contra hw
  have hnil : s.getD w [] = [] := List.getD_eq_default _ _ (by omega)
  rw [getDay, hnil] at h
  simp at h

/-! ### Consequences of a successful `can_add_post` check -/

theorem titleOnDay_eq_false_iff {s : AllDays} {w d : ℕ} {t : String} :
    titleOnDay s w d t = false ↔ ∀ p ∈ getDay s w d, p.title ≠ t := by
  simp [titleOnDay]

theorem mem_neighborWeeks {n w x : ℕ} :
    x ∈ neighborWeeks n w ↔ x < n ∧ w ≤ x + 1 ∧ x ≤ w + 1 := by
  simp [neighborWeeks, and_comm, and_assoc]

/-- A true `can_add_post` check means the title is absent from the target
day itself. -/
theorem can_add_post_target {s : AllDays} {w d : ℕ} {t : String} {im : Bool}
    (h : can_add_post s w d t im = true) : ∀ p ∈ getDay s w d, p.title ≠ t := by
  rw [can_add_post] at h
  rw [← titleOnDay_eq_false_iff]
  by_contra hne
  rw [Bool.not_eq_false] at hne
  simp [hne] at h

/-- A true `can_add_post` check means the title is absent from every day
within a ±2-day window of the target day. -/
theorem can_add_post_window {s : AllDays} {w d : ℕ} {t : String} {im : Bool}
    (h : can_add_post s w d t im = true) (hd : d < 7) :
    ∀ (w' d' : ℕ), w' < s.length → d' < 7 →
      (((7 * w' + d' : ℕ) : ℤ) - ((7 * w + d : ℕ) : ℤ)).natAbs ≤ 2 →
      ∀ p ∈ getDay s w' d', p.title ≠ t := by
  intro w' d' hw' hd' hdist p hp
  rw [can_add_post] at h
  by_cases h1 : titleOnDay s w d t
  · simp [h1] at h
  · have h2 : ((neighborWeeks s.length w).any fun w' =>
        (List.range 7).any fun d' => withinTwo w d w' d' && titleOnDay s w' d' t) = false := by
      by_contra hh
      rw [Bool.not_eq_false] at hh
      simp [h1, hh] at h
    rw [List.any_eq_false] at h2
    have hmem : w' ∈ neighborWeeks s.length w := by
      rw [mem_neighborWeeks]
      refine ⟨hw', ?_, ?_⟩ <;> omega
    have h3 := h2 w' hmem
    rw [Bool.not_eq_true, List.any_eq_false] at h3
    have h4 := h3 d' (by simpa using hd')
    intro hteq
    apply h4
    rw [Bool.and_eq_true]
    constructor
    · rw [withinTwo]
      simp only [decide_eq_true_eq]
      omega
    · simp only [titleOnDay, List.any_eq_true]
      exact ⟨p, hp, by simp [hteq]⟩

/-- A true monthly `can_add_post` check means the title is absent from
every day of the target week and the two adjacent weeks. -/
theorem can_add_post_monthly {s : AllDays} {w d : ℕ} {t : String}
    (h : can_add_post s w d t true = true) :
    ∀ (w' d' : ℕ), w' < s.length → w ≤ w' + 1 → w' ≤ w + 1 → d' < 7 →
      ∀ p ∈ getDay s w' d', p.title ≠ t := by
  intro w' d' hw' hlo hhi hd' p hp
  rw [can_add_post] at h
  by_cases h1 : titleOnDay s w d t
  · simp [h1] at h
  · by_cases h2 : (neighborWeeks s.length w).any fun w' =>
        (List.range 7).any fun d' => withinTwo w d w' d' && titleOnDay s w' d' t
    · simp [h1, h2] at h
    · have h3 : ((neighborWeeks s.length w).any fun w' =>
          (List.range 7).any fun d' => titleOnDay s w' d' t) = false := by
        by_contra hh
        rw [Bool.not_eq_false] at hh
        simp [h1, h2, hh] at h
      rw [List.any_eq_false] at h3
      have hmem : w' ∈ neighborWeeks s.length w := by
        rw [mem_neighborWeeks]; exact ⟨hw', hlo, hhi⟩
      have h4 := h3 w' hmem
      rw [Bool.not_eq_true, List.any_eq_false] at h4
      have h5 := h4 d' (by simpa using hd')
      intro hteq
      apply h5
      simp only [titleOnDay, List.any_eq_true]
      exact ⟨p, hp, by simp [hteq]⟩

/-- A monthly check is stricter than the plain check. -/
theorem can_add_post_of_monthly {s : AllDays} {w d : ℕ} {t : String}
    (h : can_add_post s w d t true = true) : can_add_post s w d t false = true := by
  rw [can_add_post] at h ⊢
  by_cases h1 : titleOnDay s w d t
  · simp [h1] at h
  · by_cases h2 : (neighborWeeks s.length w).any fun w' =>
        (List.range 7).any fun d' => withinTwo w d w' d' && titleOnDay s w' d' t
    · simp [h1, h2] at h
    · simp [h1, h2]

end CP

/-! ### The guarded-append step relation of the placement solver -/

namespace CP

/-- One guarded placement: every mutation of the grid performed by the
weekly and monthly passes appends one post to a day that has a free slot
and passes `can_add_post` (the monthly variant implies the plain one). -/
inductive PStep (ppd : ℕ) : AllDays → AllDays → Prop
  | place (s : AllDays) (w d : ℕ) (p : Post) (hd : d < 7)
      (hcap : (getDay s w d).length < ppd)
      (hcan : can_add_post s w d p.title false = true) :
      PStep ppd s (updDays (· ++ [p]) w d s)

/-- Reachability by guarded placements. -/
def Reach (ppd : ℕ) : AllDays → AllDays → Prop :=
  Relation.ReflTransGen (PStep ppd)

theorem Reach.refl {ppd : ℕ} (s : AllDays) : Reach ppd s s :=
  Relation.ReflTransGen.refl

theorem Reach.trans {ppd : ℕ} {a b c : AllDays} (h1 : Reach ppd a b)
    (h2 : Reach ppd b c) : Reach ppd a c :=
  Relation.ReflTransGen.trans h1 h2

/-- Membership in `dayLoads` means: a day index below 7 with a free slot. -/
theorem of_mem_dayLoads {s : AllDays} {w ppd : ℕ} {dl : ℕ × ℕ}
    (h : dl ∈ dayLoads s w ppd) : dl.1 < 7 ∧ (getDay s w dl.1).length < ppd := by
  rw [dayLoads, List.mem_filterMap] at h
  obtain ⟨d, hd, hif⟩ := h
  by_cases hlt : (getDay s w d).length < ppd
  · simp only [if_pos hlt, Option.some.injEq] at hif
    subst hif
    exact ⟨by simpa using hd, hlt⟩
  · simp [if_neg hlt] at hif

/-- A `weeklyStep` result is the same grid or one guarded placement away. -/
theorem weeklyStep_reach {s : AllDays} {week ppd : ℕ} {t link : String} :
    (weeklyStep s week ppd t link = .halt ∨ weeklyStep s week ppd t link = .noPlace) ∨
      ∃ s', weeklyStep s week ppd t link = .placed s' ∧ PStep ppd s s' := by
  rw [weeklyStep]
  by_cases he : (dayLoads s week ppd).isEmpty
  · rw [if_pos he]
    simp
  · rw [if_neg he]
    rcases hf : (pySort (fun a b => a.2 ≤ b.2) (dayLoads s week ppd)).find?
        (fun p => can_add_post s week p.1 t false) with _ | p
    · simp only [hf]
      simp
    · simp only [hf]
      right
      refine ⟨_, rfl, ?_⟩
      have hmem : p ∈ dayLoads s week ppd :=
        mem_pySort.mp (List.mem_of_find?_eq_some hf)
      have hcond := of_mem_dayLoads hmem
      exact PStep.place s week p.1 ⟨t, link⟩ hcond.1 hcond.2 (by simpa using List.find?_some hf)

/-- The weekly placement loop only performs guarded placements. -/
theorem placeWeeklyLoop_reach (week ppd : ℕ) (t link : String) (target : ℕ) :
    ∀ (fuel placed attempts : ℕ) (s : AllDays),
      Reach ppd s (placeWeeklyLoop week ppd t link target placed attempts fuel s) := by
  intro fuel
  induction fuel with
  | zero => intro placed attempts s; exact Reach.refl s
  | succ fuel ih =>
    intro placed attempts s
    rw [placeWeeklyLoop]
    by_cases hc : placed < target ∧ attempts < 50
    · simp only [if_pos hc]
      rcases @weeklyStep_reach s week ppd t link with
        (hh | hh) | ⟨s', hh, hstep⟩
      · rw [hh]; exact Reach.refl s
      · rw [hh]; exact ih placed (attempts + 1) s
      · rw [hh]
        exact Reach.trans (Relation.ReflTransGen.single hstep) (ih (placed + 1) attempts s')
    · simp only [if_neg hc]
      exact Reach.refl s

theorem placeWeekly_reach (s : AllDays) (week ppd : ℕ) (t link : String) (target : ℕ) :
    Reach ppd s (placeWeekly s week ppd t link target) :=
  placeWeeklyLoop_reach week ppd t link target _ _ _ s

/-- A successful `monthlyFind` names a free day accepted by the monthly check. -/
theorem monthlyFind_spec {s : AllDays} {ppd : ℕ} {t : String} :
    ∀ {ws : List ℕ} {wd : ℕ × ℕ}, monthlyFind s ppd t ws = some wd →
      wd.2 < 7 ∧ (getDay s wd.1 wd.2).length < ppd ∧
        can_add_post s wd.1 wd.2 t true = true := by
  intro ws
  induction ws with
  | nil => intro wd h; simp [monthlyFind] at h
  | cons w rest ih =>
    intro wd h
    rw [monthlyFind] at h
    rcases hf : (pySort (fun a b => a.2 ≤ b.2) (dayLoads s w ppd)).find?
        (fun p => can_add_post s w p.1 t true) with _ | p
    · rw [hf] at h
      exact ih h
    · rw [hf] at h
      simp only [Option.some.injEq] at h
      subst h
      have hmem : p ∈ dayLoads s w ppd :=
        mem_pySort.mp (List.mem_of_find?_eq_some hf)
      have hcond := of_mem_dayLoads hmem
      exact ⟨hcond.1, hcond.2, by simpa using List.find?_some hf⟩

/-- A `monthlyStep` result is the same grid or one guarded placement away. -/
theorem monthlyStep_reach {s : AllDays} {month weeks ppd : ℕ} {t link : String} :
    (monthlyStep s month weeks ppd t link = .halt ∨
      monthlyStep s month weeks ppd t link = .noPlace) ∨
      ∃ s', monthlyStep s month weeks ppd t link = .placed s' ∧ PStep ppd s s' := by
  rw [monthlyStep]
  by_cases he : ((monthWeeks month weeks).map fun w => (w, get_week_load s w)).isEmpty
  · rw [if_pos he]
    simp
  · rw [if_neg he]
    rcases hf : monthlyFind s ppd t ((pySort (fun a b => a.2 ≤ b.2)
        ((monthWeeks month weeks).map fun w => (w, get_week_load s w))).map (·.1)) with _ | wd
    · simp only [hf]
      simp
    · simp only [hf]
      right
      refine ⟨_, rfl, ?_⟩
      have hcond := monthlyFind_spec hf
      exact PStep.place s wd.1 wd.2 ⟨t, link⟩ hcond.1 hcond.2.1
        (can_add_post_of_monthly hcond.2.2)

/-- The monthly placement loop only performs guarded placements. -/
theorem placeMonthlyLoop_reach (month weeks ppd : ℕ) (t link : String) (target : ℕ) :
    ∀ (fuel placed attempts : ℕ) (s : AllDays),
      Reach ppd s (placeMonthlyLoop month weeks ppd t link target placed attempts fuel s) := by
  intro fuel
  induction fuel with
  | zero => intro placed attempts s; exact Reach.refl s
  | succ fuel ih =>
    intro placed attempts s
    rw [placeMonthlyLoop]
    by_cases hc : placed < target ∧ attempts < 50
    · simp only [if_pos hc]
      rcases @monthlyStep_reach s month weeks ppd t link with (hh | hh) | ⟨s', hh, hstep⟩
      · rw [hh]; exact Reach.refl s
      · rw [hh]; exact ih placed (attempts + 1) s
      · rw [hh]
        exact Reach.trans (Relation.ReflTransGen.single hstep) (ih (placed + 1) attempts s')
    · simp only [if_neg hc]
      exact Reach.refl s

theorem placeMonthly_reach (s : AllDays) (month weeks ppd : ℕ) (t link : String)
    (target : ℕ) : Reach ppd s (placeMonthly s month weeks ppd t link target) :=
  placeMonthlyLoop_reach month weeks ppd t link target _ _ _ s

/-- Folding reach-producing updates over a list stays reachable. -/
theorem foldl_reach {ppd : ℕ} {g : AllDays → α → AllDays}
    (hg : ∀ s x, Reach ppd s (g s x)) :
    ∀ (l : List α) (s : AllDays), Reach ppd s (l.foldl g s) := by
  intro l
  induction l with
  | nil => intro s; exact Reach.refl s
  | cons x xs ih => intro s; exact Reach.trans (hg s x) (ih (g s x))

/-- A completed failing-capable fold of reach-producing steps stays
reachable. -/
theorem optFoldl_reach {ppd : ℕ} {f : AllDays → α → Option AllDays}
    (hf : ∀ s x s', f s x = some s' → Reach ppd s s') :
    ∀ (l : List α) (s s' : AllDays), optFoldl f l s = some s' → Reach ppd s s' := by
  intro l
  induction l with
  | nil =>
    intro s s' h
    rw [optFoldl] at h
    cases h
    exact Reach.refl s
  | cons x xs ih =>
    intro s s' h
    rw [optFoldl] at h
    rcases hx : f s x with _ | s1
    · rw [hx] at h
      exact absurd h (by simp)
    · rw [hx] at h
      exact Reach.trans (hf s x s1 hx) (ih s1 s' h)

theorem weeklyGroupStep_reach {ppd week : ℕ} {s : AllDays} {g : AltGroup} {s' : AllDays}
    (h : weeklyGroupStep ppd week s g = some s') : Reach ppd s s' := by
  rw [weeklyGroupStep] at h
  split at h
  · split at h
    · cases h; exact Reach.refl s
    · simp only [] at h
      split at h
      · cases h; exact placeWeekly_reach s week ppd _ _ _
      · split at h
        · exact absurd h (by simp)
        · cases h; exact Reach.refl s
  · cases h; exact Reach.refl s

theorem monthlyGroupStep_reach {weeks ppd month : ℕ} {s : AllDays} {g : AltGroup}
    {s' : AllDays} (h : monthlyGroupStep weeks ppd month s g = some s') : Reach ppd s s' := by
  rw [monthlyGroupStep] at h
  split at h
  · split at h
    · cases h; exact Reach.refl s
    · simp only [] at h
      split at h
      · cases h; exact placeMonthly_reach s month weeks ppd _ _ _
      · split at h
        · exact absurd h (by simp)
        · cases h; exact Reach.refl s
  · cases h; exact Reach.refl s

theorem weeklyPhaseWeek_reach {gs : List AltGroup} {wposts : List PostInfo}
    {ppd week : ℕ} {s s' : AllDays}
    (h : weeklyPhaseWeek gs wposts ppd week s = some s') : Reach ppd s s' := by
  rw [weeklyPhaseWeek] at h
  rcases hq : optFoldl (weeklyGroupStep ppd week) gs s with _ | s1
  · rw [hq] at h
    exact absurd h (by simp)
  · rw [hq] at h
    simp only [Option.bind_eq_bind, Option.some_bind, Option.pure_def,
      Option.some.injEq] at h
    refine Reach.trans
      (optFoldl_reach (fun s x s' hh => weeklyGroupStep_reach hh) gs s s1 hq) ?_
    rw [← h]
    refine foldl_reach (fun s p => ?_) wposts s1
    by_cases hg : !p.inGroup
    · simp only [hg, if_true]
      split
      · exact Reach.refl s
      · exact placeWeekly_reach s week ppd _ _ _
    · simp only [hg, if_false]
      exact Reach.refl s

theorem monthlyPhaseMonth_reach {gs : List AltGroup} {mposts : List PostInfo}
    {ppd weeks month : ℕ} {s s' : AllDays}
    (h : monthlyPhaseMonth gs mposts ppd weeks month s = some s') : Reach ppd s s' := by
  rw [monthlyPhaseMonth] at h
  rcases hq : optFoldl (monthlyGroupStep weeks ppd month) gs s with _ | s1
  · rw [hq] at h
    exact absurd h (by simp)
  · rw [hq] at h
    simp only [Option.bind_eq_bind, Option.some_bind, Option.pure_def,
      Option.some.injEq] at h
    refine Reach.trans
      (optFoldl_reach (fun s x s' hh => monthlyGroupStep_reach hh) gs s s1 hq) ?_
    rw [← h]
    refine foldl_reach (fun s p => ?_) mposts s1
    by_cases hg : !p.inGroup
    · simp only [hg, if_true]
      split
      · exact Reach.refl s
      · exact placeMonthly_reach s month weeks ppd _ _ _
    · simp only [hg, if_false]
      exact Reach.refl s

theorem weeklyPhase_reach {gs : List AltGroup} {wposts : List PostInfo}
    {ppd weeks : ℕ} {s s' : AllDays}
    (h : weeklyPhase gs wposts ppd weeks s = some s') : Reach ppd s s' := by
  rw [weeklyPhase] at h
  exact optFoldl_reach (fun s x s' hh => weeklyPhaseWeek_reach hh) _ s s' h

theorem monthlyPhase_reach {gs : List AltGroup} {mposts : List PostInfo}
    {ppd weeks : ℕ} {s s' : AllDays}
    (h : monthlyPhase gs mposts ppd weeks s = some s') : Reach ppd s s' := by
  rw [monthlyPhase] at h
  exact optFoldl_reach (fun s x s' hh => monthlyPhaseMonth_reach hh) _ s s' h

end CP

/-! ### Invariants of the placement phase -/

namespace CP

/-- Grid shape: `weeks` weeks of 7 days each. -/
def Shape (weeks : ℕ) (s : AllDays) : Prop :=
  s.length = weeks ∧ ∀ wk ∈ s, wk.length = 7

/-- Capacity: no day ever exceeds `posts_per_day` posts. -/
def CapInv (ppd : ℕ) (s : AllDays) : Prop :=
  ∀ w d, (getDay s w d).length ≤ ppd

/-- Per-day title uniqueness. -/
def NodupInv (s : AllDays) : Prop :=
  ∀ w d, ((getDay s w d).map Post.title).Nodup

/-- Cross-day spacing: equal titles on distinct days are more than 2 days
apart. -/
def SpacInv (s : AllDays) : Prop :=
  ∀ w d w' d', d < 7 → d' < 7 → ¬(w = w' ∧ d = d') →
    ∀ p ∈ getDay s w d, ∀ q ∈ getDay s w' d', p.title = q.title →
      2 < (((7 * w + d : ℕ) : ℤ) - ((7 * w' + d' : ℕ) : ℤ)).natAbs

theorem getD_empty (n : ℕ) (x : α) : ([] : List α).getD n x = x := by
  cases n <;> rfl

theorem mem_of_mem_updDays {s : AllDays} {wk' : List (List Post)}
    {f : List Post → List Post} {w d : ℕ} (h : wk' ∈ updDays f w d s) :
    wk' ∈ s ∨ ∃ wk ∈ s, wk' = updWeek f d wk := by
  induction s generalizing w with
  | nil => simp at h
  | cons wk rest ih =>
    cases w with
    | zero =>
      rw [updDays, List.mem_cons] at h
      rcases h with h | h
      · exact Or.inr ⟨wk, List.mem_cons_self wk rest, h⟩
      · exact Or.inl (List.mem_cons_of_mem _ h)
    | succ w =>
      rw [updDays, List.mem_cons] at h
      rcases h with h | h
      · exact Or.inl (h ▸ List.mem_cons_self wk rest)
      · rcases ih h with hh | ⟨wk0, hwk0, heq⟩
        · exact Or.inl (List.mem_cons_of_mem _ hh)
        · exact Or.inr ⟨wk0, List.mem_cons_of_mem _ hwk0, heq⟩

theorem Shape.updDays {weeks : ℕ} {s : AllDays} (hs : Shape weeks s)
    (f : List Post → List Post) (w d : ℕ) : Shape weeks (updDays f w d s) := by
  refine ⟨by simpa using hs.1, fun wk' hwk' => ?_⟩
  rcases mem_of_mem_updDays hwk' with h | ⟨wk, hwk, rfl⟩
  · exact hs.2 wk' h
  · simpa using hs.2 wk hwk

theorem PStep.shape_step {ppd weeks : ℕ} {s s' : AllDays} (hst : PStep ppd s s')
    (hs : Shape weeks s) : Shape weeks s' := by
  cases hst with
  | place w d p hd hcap hcan => exact hs.updDays _ w d

theorem PStep.cap_step {ppd : ℕ} {s s' : AllDays} (hst : PStep ppd s s')
    (hs : CapInv ppd s) : CapInv ppd s' := by
  cases hst with
  | place w d p hd hcap hcan =>
    intro w' d'
    rcases getDay_updDays_append s w d p w' d' with h | ⟨rfl, rfl, h⟩
    · rw [h]; exact hs w' d'
    · rw [h]; simpa using hcap

theorem PStep.nodup_step {ppd : ℕ} {s s' : AllDays} (hst : PStep ppd s s')
    (hs : NodupInv s) : NodupInv s' := by
  cases hst with
  | place w d p hd hcap hcan =>
    intro w' d'
    rcases getDay_updDays_append s w d p w' d' with h | ⟨hw, hdd, h⟩
    · rw [h]; exact hs w' d'
    · rw [h]
      rw [List.map_append, List.map_singleton]
      rw [List.nodup_append]
      refine ⟨hs w d, List.nodup_singleton _, ?_⟩
      intro a ha
      simp only [List.mem_singleton]
      intro heq
      rw [List.mem_map] at ha
      obtain ⟨q, hq, hqt⟩ := ha
      exact can_add_post_target hcan q hq (by rw [hqt, heq])

theorem PStep.spacing_step {ppd : ℕ} {s s' : AllDays} (hst : PStep ppd s s')
    (hs : SpacInv s) : SpacInv s' := by
  cases hst with
  | place w0 d0 p0 hd0 hcap hcan =>
    intro w d w' d' hd hd' hne p hp q hq htitle
    rcases getDay_updDays_append s w0 d0 p0 w d with h1 | ⟨hw1, hdd1, h1⟩
    · rcases getDay_updDays_append s w0 d0 p0 w' d' with h2 | ⟨hw2, hdd2, h2⟩
      · exact hs w d w' d' hd hd' hne p (h1 ▸ hp) q (h2 ▸ hq) htitle
      · rw [h2] at hq
        simp only [hw2, hdd2] at hne hd' ⊢
        rcases List.mem_append.mp hq with hq2 | hq2
        · exact hs w d w0 d0 hd hd' hne p (h1 ▸ hp) q hq2 htitle
        · rw [List.mem_singleton] at hq2
          subst hq2
          by_contra hcl
          push_neg at hcl
          exact can_add_post_window hcan hd' w d (lt_length_of_mem_getDay (h1 ▸ hp)) hd
            (by omega) p (h1 ▸ hp) htitle
    · rw [h1] at hp
      simp only [hw1, hdd1] at hne hd ⊢
      rcases getDay_updDays_append s w0 d0 p0 w' d' with h2 | ⟨hw2, hdd2, h2⟩
      · rcases List.mem_append.mp hp with hp2 | hp2
        · exact hs w0 d0 w' d' hd hd' hne p hp2 q (h2 ▸ hq) htitle
        · rw [List.mem_singleton] at hp2
          subst hp2
          by_contra hcl
          push_neg at hcl
          exact can_add_post_window hcan hd w' d' (lt_length_of_mem_getDay (h2 ▸ hq)) hd'
            (by omega) q (h2 ▸ hq) htitle.symm
      · simp only [hw2, hdd2] at hne
        exact absurd (by simp) hne

theorem Reach.shape {ppd weeks : ℕ} {s s' : AllDays} (h : Reach ppd s s')
    (hs : Shape weeks s) : Shape weeks s' := by
  induction h with
  | refl => exact hs
  | tail _ hstep ih => exact hstep.shape_step ih

theorem Reach.cap {ppd : ℕ} {s s' : AllDays} (h : Reach ppd s s')
    (hs : CapInv ppd s) : CapInv ppd s' := by
  induction h with
  | refl => exact hs
  | tail _ hstep ih => exact hstep.cap_step ih

theorem Reach.nodup {ppd : ℕ} {s s' : AllDays} (h : Reach ppd s s')
    (hs : NodupInv s) : NodupInv s' := by
  induction h with
  | refl => exact hs
  | tail _ hstep ih => exact hstep.nodup_step ih

theorem Reach.spacing {ppd : ℕ} {s s' : AllDays} (h : Reach ppd s s')
    (hs : SpacInv s) : SpacInv s' := by
  induction h with
  | refl => exact hs
  | tail _ hstep ih => exact hstep.spacing_step ih

theorem getD_replicate_self (n i : ℕ) (x : α) : (List.replicate n x).getD i x = x := by
  induction n generalizing i with
  | zero => exact getD_empty i x
  | succ n ih =>
    cases i with
    | zero => rfl
    | succ i =>
      rw [List.replicate_succ, List.getD_cons_succ]
      exact ih i

@[simp] theorem getDay_initGrid (weeks w d : ℕ) : getDay (initGrid weeks) w d = [] := by
  rw [initGrid, getDay]
  have hw : (List.replicate weeks (List.replicate 7 ([] : List Post))).getD w [] =
      List.replicate 7 [] ∨
      (List.replicate weeks (List.replicate 7 ([] : List Post))).getD w [] = [] := by
    rcases Nat.lt_or_ge w weeks with h | h
    · left
      rw [List.getD_eq_getElem _ _ (by simpa using h)]
      simp
    · right
      exact List.getD_eq_default _ _ (by simpa using h)
  rcases hw with hw | hw <;> rw [hw]
  · exact getD_replicate_self 7 d []
  · exact getD_empty d []

theorem initGrid_shape (weeks : ℕ) : Shape weeks (initGrid weeks) := by
  constructor
  · simp [initGrid]
  · intro wk hwk
    rw [initGrid, List.mem_replicate] at hwk
    simp [hwk.2]

theorem initGrid_cap (weeks ppd : ℕ) : CapInv ppd (initGrid weeks) := by
  intro w d; simp

theorem initGrid_nodup (weeks : ℕ) : NodupInv (initGrid weeks) := by
  intro w d; simp

theorem initGrid_spacing (weeks : ℕ) : SpacInv (initGrid weeks) := by
  intro w d w' d' _ _ _ p hp
  simp at hp

end CP

/-! ### The balancing pass is a no-op -/

namespace CP

/-- If the window scan finds the title, `can_add_post` rejects. -/
theorem can_add_post_eq_false {s : AllDays} {w d : ℕ} {t : String} {im : Bool}
    (hh : ((neighborWeeks s.length w).any fun w' =>
      (List.range 7).any fun d' => withinTwo w d w' d' && titleOnDay s w' d' t) = true) :
    can_add_post s w d t im = false := by
  rw [can_add_post]
  by_cases h1 : titleOnDay s w d t
  · simp [h1]
  · simp [h1, hh]

/-- `can_add_post` always rejects moving a post one day over: while the
post still sits on day `(w, d)`, day `(w, d)` lies inside the ±2-day
window of the neighbouring day `(w, adj)`. -/
theorem can_add_post_adjacent_false {s : AllDays} {w d adj : ℕ} {p : Post}
    (hd : d < 7) (hadj : ((adj : ℤ) - (d : ℤ)).natAbs = 1)
    (hp : p ∈ getDay s w d) : can_add_post s w adj p.title false = false := by
  apply can_add_post_eq_false
  rw [List.any_eq_true]
  refine ⟨w, ?_, ?_⟩
  · rw [mem_neighborWeeks]
    exact ⟨lt_length_of_mem_getDay hp, by omega, by omega⟩
  · rw [List.any_eq_true]
    refine ⟨d, by simpa using hd, ?_⟩
    rw [Bool.and_eq_true]
    constructor
    · rw [withinTwo]
      simp only [decide_eq_true_eq]
      omega
    · rw [titleOnDay, List.any_eq_true]
      exact ⟨p, hp, by simp⟩

theorem tryMoveOne_id (s : AllDays) (w d adj : ℕ) (hd : d < 7)
    (hadj : ((adj : ℤ) - (d : ℤ)).natAbs = 1) : tryMoveOne s w d adj = s := by
  rw [tryMoveOne]
  have hnone : (getDay s w d).find?
      (fun p => p.title != "" && can_add_post s w adj p.title false) = none := by
    rw [List.find?_eq_none]
    intro p hp
    rw [Bool.and_eq_true]
    intro ⟨_, hcan⟩
    rw [can_add_post_adjacent_false hd hadj hp] at hcan
    exact Bool.false_ne_true hcan
  rw [hnone]

theorem foldl_mem_id {g : AllDays → α → AllDays} {l : List α}
    (hg : ∀ x ∈ l, ∀ s, g s x = s) (s : AllDays) : l.foldl g s = s := by
  induction l generalizing s with
  | nil => rfl
  | cons a l ih =>
    rw [List.foldl_cons, hg a (List.mem_cons_self a l) s]
    exact ih (fun x hx s => hg x (List.mem_cons_of_mem a hx) s) s

theorem balanceDay_id (s : AllDays) (w d : ℕ) (hd : d < 7) : balanceDay s w d = s := by
  rw [balanceDay]
  split
  · refine foldl_mem_id (fun adj hadj s' => ?_) s
    rw [List.mem_filter] at hadj
    have h1 : ((adj : ℤ) - (d : ℤ)).natAbs = 1 := by
      have := hadj.2
      simpa using this
    split
    · exact tryMoveOne_id s' w d adj hd h1
    · rfl
  · rfl

theorem balancePass_id (weeks : ℕ) (s : AllDays) : balancePass weeks s = s := by
  rw [balancePass]
  refine foldl_mem_id (fun w _ s1 => ?_) s
  refine foldl_mem_id (fun d hdmem s2 => ?_) s1
  exact balanceDay_id s2 w d (by simpa using hdmem)

end CP

/-! ### Properties of the flattening step -/

namespace CP

theorem post_slots_length : post_slots.length = 5 := rfl

theorem flattenSlots_spec {date : ℕ} :
    ∀ (l : List Post) (i : ℕ) (es : List Entry), flattenSlots date i l = some es →
      es.length = l.length ∧ (∀ e ∈ es, e.day = date) ∧
        es.map Entry.title = l.map Post.title := by
  intro l
  induction l with
  | nil =>
    intro i es h
    rw [flattenSlots] at h
    simp only [Option.some.injEq] at h
    subst h
    exact ⟨rfl, by simp, rfl⟩
  | cons p rest ih =>
    intro i es h
    rw [flattenSlots] at h
    rcases hslot : post_slots[i]? with _ | tm
    · rw [hslot] at h; simp at h
    · rw [hslot] at h
      rcases hrec : flattenSlots date (i + 1) rest with _ | r
      · rw [hrec] at h; simp at h
      · rw [hrec] at h
        simp only [Option.map_some', Option.some.injEq] at h
        subst h
        obtain ⟨hlen, hday, htitles⟩ := ih (i + 1) r hrec
        refine ⟨by simp [hlen], ?_, by simp [htitles]⟩
        intro e he
        rcases List.mem_cons.mp he with rfl | he
        · rfl
        · exact hday e he

theorem flattenSlots_isSome {date : ℕ} :
    ∀ (l : List Post) (i : ℕ),
      (flattenSlots date i l).isSome ↔ (i + l.length ≤ 5 ∨ l = []) := by
  intro l
  induction l with
  | nil => intro i; simp [flattenSlots]
  | cons p rest ih =>
    intro i
    rw [flattenSlots]
    rcases hslot : post_slots[i]? with _ | tm
    · have hge : 5 ≤ i := by
        by_contra hlt
        rw [List.getElem?_eq_getElem (by rw [post_slots_length]; omega)] at hslot
        exact Option.noConfusion hslot
      simp only [Option.isSome_none]
      constructor
      · intro hh; exact absurd hh (by simp)
      · intro hh
        rcases hh with hh | hh
        · simp at hh; omega
        · exact absurd hh (by simp)
    · have hi : i < 5 := by
        by_contra hge
        rw [List.getElem?_eq_none (by rw [post_slots_length]; omega)] at hslot
        exact Option.noConfusion hslot
      rcases hrec : flattenSlots date (i + 1) rest with _ | r
      · have hno : ¬(i + 1 + rest.length ≤ 5 ∨ rest = []) := by
          intro hcl
          have hii := (ih (i + 1)).mpr hcl
          rw [hrec] at hii
          simp at hii
        push_neg at hno
        obtain ⟨hno1, _⟩ := hno
        simp only [hrec, Option.map_none', Option.isSome_none]
        constructor
        · intro hh; exact absurd hh (by simp)
        · intro hh
          rcases hh with hh | hh
          · simp only [List.length_cons] at hh
            omega
          · exact absurd hh (by simp)
      · have hsome := (ih (i + 1)).mp (by rw [hrec]; simp)
        simp only [hrec, Option.map_some', Option.isSome_some, true_iff]
        left
        simp only [List.length_cons]
        rcases hsome with hh | hh
        · omega
        · subst hh; simp; omega

end CP

namespace CP

theorem padDay_length (ps : List Post) : (padDay ps).length = max ps.length 5 := by
  rw [padDay]
  simp
  omega

theorem padDay_titles (ps : List Post) :
    (padDay ps).map Post.title = ps.map Post.title ++ List.replicate (5 - ps.length) "" := by
  rw [padDay]
  simp [List.map_replicate]

/-- What a successful day flattening yields. -/
theorem flattenDay_spec {w d : ℕ} {ps : List Post} {es : List Entry}
    (h : flattenDay w d ps = some es) :
    ps.length ≤ 5 ∧ es.length = 5 ∧ (∀ e ∈ es, e.day = 7 * w + d) ∧
      es.map Entry.title = ps.map Post.title ++ List.replicate (5 - ps.length) "" := by
  rw [flattenDay] at h
  have hle : ps.length ≤ 5 := by
    by_contra hgt
    have hiss : ¬(flattenSlots (7 * w + d) 0 (padDay ps)).isSome := by
      rw [flattenSlots_isSome]
      push_neg
      constructor
      · rw [padDay_length]; omega
      · intro hnil
        have := congrArg List.length hnil
        rw [padDay_length] at this
        simp only [List.length_nil] at this
        omega
    rw [h] at hiss
    simp at hiss
  obtain ⟨hlen, hday, htitles⟩ := flattenSlots_spec (padDay ps) 0 es h
  refine ⟨hle, ?_, hday, by rw [htitles, padDay_titles]⟩
  rw [hlen, padDay_length]
  omega

theorem flattenDay_isSome {w d : ℕ} {ps : List Post} :
    (flattenDay w d ps).isSome ↔ ps.length ≤ 5 := by
  rw [flattenDay, flattenSlots_isSome]
  constructor
  · intro hh
    rcases hh with hh | hh
    · rw [padDay_length] at hh; omega
    · have := congrArg List.length hh
      rw [padDay_length] at this
      simp only [List.length_nil] at this
      omega
  · intro hle
    left
    rw [padDay_length]
    omega

/-- A week is flattened precisely when each of its days has at most 5 posts. -/
theorem flattenWeek_isSome {w : ℕ} :
    ∀ (days : List (List Post)) (d0 : ℕ),
      (flattenWeek w d0 days).isSome ↔ ∀ ps ∈ days, ps.length ≤ 5 := by
  intro days
  induction days with
  | nil => intro d0; simp [flattenWeek]
  | cons ps rest ih =>
    intro d0
    rw [flattenWeek]
    rcases hb : flattenDay w d0 ps with _ | b
    · have hgt : ¬ps.length ≤ 5 := by
        rw [← flattenDay_isSome (w := w) (d := d0), hb]
        simp
      simp only [Option.bind_eq_bind, Option.none_bind, Option.isSome_none]
      constructor
      · intro hh; exact absurd hh (by simp)
      · intro hh
        exact absurd (hh ps (List.mem_cons_self _ _)) hgt
    · have hps : ps.length ≤ 5 := by
        rw [← flattenDay_isSome (w := w) (d := d0), hb]
        rfl
      rcases hr : flattenWeek w (d0 + 1) rest with _ | r
      · have hno : ¬∀ ps ∈ rest, ps.length ≤ 5 := by
          intro hall
          have hii := (ih (d0 + 1)).mpr hall
          rw [hr] at hii
          simp at hii
        push_neg at hno
        obtain ⟨ps', hps', hgt⟩ := hno
        simp only [Option.bind_eq_bind, Option.some_bind, hr, Option.none_bind,
          Option.isSome_none]
        constructor
        · intro hh; exact absurd hh (by simp)
        · intro hh
          have := hh ps' (List.mem_cons_of_mem _ hps')
          omega
      · have hrest := (ih (d0 + 1)).mp (by rw [hr]; rfl)
        simp only [Option.bind_eq_bind, Option.some_bind, hr, Option.pure_def,
          Option.isSome_some, true_iff]
        intro q hq
        rcases List.mem_cons.mp hq with rfl | hq
        · exact hps
        · exact hrest q hq

end CP

namespace CP

/-- The whole grid is flattened precisely when every day has at most 5 posts. -/
theorem flattenWeeks_isSome :
    ∀ (s : AllDays) (w0 : ℕ),
      (flattenWeeks w0 s).isSome ↔ ∀ wk ∈ s, ∀ ps ∈ wk, ps.length ≤ 5 := by
  intro s
  induction s with
  | nil => intro w0; simp [flattenWeeks]
  | cons wk rest ih =>
    intro w0
    rw [flattenWeeks]
    rcases hb : flattenWeek w0 0 wk with _ | b
    · have hno : ¬∀ ps ∈ wk, ps.length ≤ 5 := by
        intro hall
        have hii := (flattenWeek_isSome (w := w0) wk 0).mpr hall
        rw [hb] at hii
        simp at hii
      push_neg at hno
      obtain ⟨ps', hps', hgt⟩ := hno
      simp only [Option.bind_eq_bind, Option.none_bind, Option.isSome_none]
      constructor
      · intro hh; exact absurd hh (by simp)
      · intro hh
        have := hh wk (List.mem_cons_self _ _) ps' hps'
        omega
    · have hwk := (flattenWeek_isSome (w := w0) wk 0).mp (by rw [hb]; rfl)
      rcases hr : flattenWeeks (w0 + 1) rest with _ | r
      · have hno : ¬∀ wk' ∈ rest, ∀ ps ∈ wk', ps.length ≤ 5 := by
          intro hall
          have hii := (ih (w0 + 1)).mpr hall
          rw [hr] at hii
          simp at hii
        push_neg at hno
        obtain ⟨wk', hwk', ps', hps', hgt⟩ := hno
        simp only [Option.bind_eq_bind, Option.some_bind, hr, Option.none_bind,
          Option.isSome_none]
        constructor
        · intro hh; exact absurd hh (by simp)
        · intro hh
          have := hh wk' (List.mem_cons_of_mem _ hwk') ps' hps'
          omega
      · have hrest := (ih (w0 + 1)).mp (by rw [hr]; rfl)
        simp only [Option.bind_eq_bind, Option.some_bind, hr, Option.pure_def,
          Option.isSome_some, true_iff]
        intro wk' hwk'
        rcases List.mem_cons.mp hwk' with rfl | hwk'
        · exact hwk
        · exact hrest wk' hwk'

/-- Day numbers of the entries produced for one week. -/
theorem flattenWeek_days {w : ℕ} :
    ∀ (days : List (List Post)) (d0 : ℕ) (es : List Entry),
      flattenWeek w d0 days = some es →
        ∀ e ∈ es, 7 * w + d0 ≤ e.day ∧ e.day < 7 * w + d0 + days.length := by
  intro days
  induction days with
  | nil =>
    intro d0 es h
    rw [flattenWeek] at h
    simp only [Option.some.injEq] at h
    subst h
    simp
  | cons ps rest ih =>
    intro d0 es h
    rw [flattenWeek] at h
    rcases hb : flattenDay w d0 ps with _ | b
    · rw [hb] at h; simp at h
    · rw [hb] at h
      rcases hr : flattenWeek w (d0 + 1) rest with _ | r
      · rw [hr] at h; simp at h
      · rw [hr] at h
        simp only [Option.bind_eq_bind, Option.some_bind, Option.pure_def,
          Option.some.injEq] at h
        subst h
        intro e he
        rcases List.mem_append.mp he with he | he
        · have := (flattenDay_spec hb).2.2.1 e he
          rw [this]
          simp only [List.length_cons]
          omega
        · have := ih (d0 + 1) r hr e he
          simp only [List.length_cons]
          omega

/-- Day numbers of the entries produced for the whole grid (weeks of 7 days). -/
theorem flattenWeeks_days :
    ∀ (s : AllDays) (w0 : ℕ) (es : List Entry),
      (∀ wk ∈ s, wk.length = 7) → flattenWeeks w0 s = some es →
        ∀ e ∈ es, 7 * w0 ≤ e.day ∧ e.day < 7 * w0 + 7 * s.length := by
  intro s
  induction s with
  | nil =>
    intro w0 es _ h
    rw [flattenWeeks] at h
    simp only [Option.some.injEq] at h
    subst h
    simp
  | cons wk rest ih =>
    intro w0 es hsh h
    rw [flattenWeeks] at h
    rcases hb : flattenWeek w0 0 wk with _ | b
    · rw [hb] at h; simp at h
    · rw [hb] at h
      rcases hr : flattenWeeks (w0 + 1) rest with _ | r
      · rw [hr] at h; simp at h
      · rw [hr] at h
        simp only [Option.bind_eq_bind, Option.some_bind, Option.pure_def,
          Option.some.injEq] at h
        subst h
        intro e he
        rcases List.mem_append.mp he with he | he
        · have := flattenWeek_days wk 0 b hb e he
          have hlen : wk.length = 7 := hsh wk (List.mem_cons_self _ _)
          rw [hlen] at this
          simp only [List.length_cons]
          omega
        · have := ih (w0 + 1) r (fun wk' hwk' => hsh wk' (List.mem_cons_of_mem _ hwk')) hr e he
          simp only [List.length_cons]
          omega

end CP

namespace CP

/-- A nonempty-titled entry of a flattened day comes from a post of that day. -/
theorem flattenDay_mem {w d : ℕ} {ps : List Post} {es : List Entry} {e : Entry}
    (h : flattenDay w d ps = some es) (he : e ∈ es) (ht : e.title ≠ "") :
    e.day = 7 * w + d ∧ ∃ p ∈ ps, p.title = e.title := by
  obtain ⟨_, _, hday, htitles⟩ := flattenDay_spec h
  refine ⟨hday e he, ?_⟩
  have hmem : e.title ∈ es.map Entry.title := List.mem_map_of_mem _ he
  rw [htitles] at hmem
  rcases List.mem_append.mp hmem with hmem | hmem
  · rw [List.mem_map] at hmem
    obtain ⟨p, hp, hpt⟩ := hmem
    exact ⟨p, hp, hpt⟩
  · rw [List.mem_replicate] at hmem
    exact absurd hmem.2 ht

/-- Decompose an entry of a flattened week. -/
theorem flattenWeek_mem {w : ℕ} :
    ∀ (days : List (List Post)) (d0 : ℕ) (es : List Entry) (e : Entry),
      flattenWeek w d0 days = some es → e ∈ es →
        ∃ k, k < days.length ∧ e.day = 7 * w + (d0 + k) ∧
          (e.title ≠ "" → ∃ p ∈ days.getD k [], p.title = e.title) := by
  intro days
  induction days with
  | nil =>
    intro d0 es e h he
    rw [flattenWeek] at h
    simp only [Option.some.injEq] at h
    subst h
    simp at he
  | cons ps rest ih =>
    intro d0 es e h he
    rw [flattenWeek] at h
    rcases hb : flattenDay w d0 ps with _ | b
    · rw [hb] at h; simp at h
    · rw [hb] at h
      rcases hr : flattenWeek w (d0 + 1) rest with _ | r
      · rw [hr] at h; simp at h
      · rw [hr] at h
        simp only [Option.bind_eq_bind, Option.some_bind, Option.pure_def,
          Option.some.injEq] at h
        subst h
        rcases List.mem_append.mp he with he | he
        · refine ⟨0, by simp, ?_, ?_⟩
          · rw [(flattenDay_spec hb).2.2.1 e he]
            simp
          · intro ht
            exact ⟨((flattenDay_mem hb he ht).2.choose),
              by simpa using (flattenDay_mem hb he ht).2.choose_spec⟩
        · obtain ⟨k, hk, hday, hp⟩ := ih (d0 + 1) r e hr he
          refine ⟨k + 1, by simpa using hk, by rw [hday]; ring_nf, ?_⟩
          intro ht
          simpa using hp ht

/-- Decompose an entry of the flattened grid. -/
theorem flattenWeeks_mem :
    ∀ (s : AllDays) (w0 : ℕ) (es : List Entry) (e : Entry),
      flattenWeeks w0 s = some es → e ∈ es →
        ∃ wi k, wi < s.length ∧ k < (s.getD wi []).length ∧
          e.day = 7 * (w0 + wi) + k ∧
          (e.title ≠ "" → ∃ p ∈ getDay s wi k, p.title = e.title) := by
  intro s
  induction s with
  | nil =>
    intro w0 es e h he
    rw [flattenWeeks] at h
    simp only [Option.some.injEq] at h
    subst h
    simp at he
  | cons wk rest ih =>
    intro w0 es e h he
    rw [flattenWeeks] at h
    rcases hb : flattenWeek w0 0 wk with _ | b
    · rw [hb] at h; simp at h
    · rw [hb] at h
      rcases hr : flattenWeeks (w0 + 1) rest with _ | r
      · rw [hr] at h; simp at h
      · rw [hr] at h
        simp only [Option.bind_eq_bind, Option.some_bind, Option.pure_def,
          Option.some.injEq] at h
        subst h
        rcases List.mem_append.mp he with he | he
        · obtain ⟨k, hk, hday, hp⟩ := flattenWeek_mem wk 0 b e hb he
          refine ⟨0, k, by simp, by simpa using hk, by simpa using hday, ?_⟩
          intro ht
          simpa [getDay] using hp ht
        · obtain ⟨wi, k, hwi, hk, hday, hp⟩ := ih (w0 + 1) r e hr he
          refine ⟨wi + 1, k, by simpa using hwi, by simpa using hk,
            by rw [hday]; ring_nf, ?_⟩
          intro ht
          simpa [getDay] using hp ht

end CP

namespace CP

/-- The entries at day number `7*w + (d0 + k)` of a flattened week are
exactly the block produced for day `k`. -/
theorem flattenWeek_filter {w : ℕ} :
    ∀ (days : List (List Post)) (d0 : ℕ) (es : List Entry) (k : ℕ),
      flattenWeek w d0 days = some es → k < days.length →
        ∃ b, flattenDay w (d0 + k) (days.getD k []) = some b ∧
          es.filter (fun e => e.day == 7 * w + (d0 + k)) = b := by
  intro days
  induction days with
  | nil =>
    intro d0 es k h hk
    simp at hk
  | cons ps rest ih =>
    intro d0 es k h hk
    rw [flattenWeek] at h
    rcases hb : flattenDay w d0 ps with _ | b
    · rw [hb] at h; simp at h
    · rw [hb] at h
      rcases hr : flattenWeek w (d0 + 1) rest with _ | r
      · rw [hr] at h; simp at h
      · rw [hr] at h
        simp only [Option.bind_eq_bind, Option.some_bind, Option.pure_def,
          Option.some.injEq] at h
        subst h
        rw [List.filter_append]
        cases k with
        | zero =>
          refine ⟨b, ?_, ?_⟩
          · rw [Nat.add_zero, List.getD_cons_zero]
            exact hb
          · have hfb : b.filter (fun e => e.day == 7 * w + (d0 + 0)) = b := by
              rw [List.filter_eq_self]
              intro e he
              rw [(flattenDay_spec hb).2.2.1 e he]
              simp
            have hfr : r.filter (fun e => e.day == 7 * w + (d0 + 0)) = [] := by
              rw [List.filter_eq_nil_iff]
              intro e he
              have := flattenWeek_days rest (d0 + 1) r hr e he
              simp only [beq_iff_eq]
              omega
            rw [hfb, hfr, List.append_nil]
        | succ k =>
          obtain ⟨b', hb', hf'⟩ := ih (d0 + 1) r k hr (by simpa using hk)
          have heq : 7 * w + (d0 + (k + 1)) = 7 * w + (d0 + 1 + k) := by omega
          have heq2 : d0 + (k + 1) = d0 + 1 + k := by omega
          refine ⟨b', ?_, ?_⟩
          · rw [heq2, List.getD_cons_succ]
            exact hb'
          · have hfb : b.filter (fun e => e.day == 7 * w + (d0 + (k + 1))) = [] := by
              rw [List.filter_eq_nil_iff]
              intro e he
              rw [(flattenDay_spec hb).2.2.1 e he]
              simp only [beq_iff_eq]
              omega
            rw [hfb, List.nil_append, heq]
            exact hf'

/-- The entries at day number `7*(w0+wi) + k` of the flattened grid are
exactly the block produced for day `(wi, k)`. -/
theorem flattenWeeks_filter :
    ∀ (s : AllDays) (w0 : ℕ) (es : List Entry) (wi k : ℕ),
      (∀ wk ∈ s, wk.length = 7) → flattenWeeks w0 s = some es →
      wi < s.length → k < 7 →
        ∃ b, flattenDay (w0 + wi) k (getDay s wi k) = some b ∧
          es.filter (fun e => e.day == 7 * (w0 + wi) + k) = b := by
  intro s
  induction s with
  | nil =>
    intro w0 es wi k _ h hwi hk
    simp at hwi
  | cons wk rest ih =>
    intro w0 es wi k hsh h hwi hk
    rw [flattenWeeks] at h
    rcases hb : flattenWeek w0 0 wk with _ | b
    · rw [hb] at h; simp at h
    · rw [hb] at h
      rcases hr : flattenWeeks (w0 + 1) rest with _ | r
      · rw [hr] at h; simp at h
      · rw [hr] at h
        simp only [Option.bind_eq_bind, Option.some_bind, Option.pure_def,
          Option.some.injEq] at h
        subst h
        rw [List.filter_append]
        have hwk7 : wk.length = 7 := hsh wk (List.mem_cons_self _ _)
        cases wi with
        | zero =>
          obtain ⟨b', hb', hf'⟩ := flattenWeek_filter wk 0 b k hb (by omega)
          have heq : 7 * (w0 + 0) + k = 7 * w0 + (0 + k) := by omega
          refine ⟨b', ?_, ?_⟩
          · have heq2 : w0 + 0 = w0 := by omega
            rw [heq2]
            have heq3 : getDay (wk :: rest) 0 k = wk.getD k [] := by
              rw [getDay, List.getD_cons_zero]
            rw [heq3]
            rw [Nat.zero_add] at hb'
            exact hb'
          · have hfr : r.filter (fun e => e.day == 7 * (w0 + 0) + k) = [] := by
              rw [List.filter_eq_nil_iff]
              intro e he
              have := flattenWeeks_days rest (w0 + 1) r
                (fun wk' hwk' => hsh wk' (List.mem_cons_of_mem _ hwk')) hr e he
              simp only [beq_iff_eq]
              omega
            rw [hfr, List.append_nil, heq]
            exact hf'
        | succ wi =>
          obtain ⟨b', hb', hf'⟩ := ih (w0 + 1) r wi k
            (fun wk' hwk' => hsh wk' (List.mem_cons_of_mem _ hwk')) hr (by simpa using hwi) hk
          have heq : 7 * (w0 + (wi + 1)) + k = 7 * (w0 + 1 + wi) + k := by omega
          have heq2 : w0 + (wi + 1) = w0 + 1 + wi := by omega
          refine ⟨b', ?_, ?_⟩
          · rw [heq2]
            have heq3 : getDay (wk :: rest) (wi + 1) k = getDay rest wi k := by
              rw [getDay, List.getD_cons_succ, getDay]
            rw [heq3]
            exact hb'
          · have hfb : b.filter (fun e => e.day == 7 * (w0 + (wi + 1)) + k) = [] := by
              rw [List.filter_eq_nil_iff]
              intro e he
              have := flattenWeek_days wk 0 b hb e he
              rw [hwk7] at this
              simp only [beq_iff_eq]
              omega
            rw [hfb, List.nil_append, heq]
            exact hf'

end CP

/-! ### Run-level facts about `get_post_schedule` -/

namespace CP

/-- A produced schedule is the flattening of a reachable grid (the run
got past `buildPosts` and both placement phases completed without the
mixed-group `KeyError`). -/
theorem run_spec {df : List Row} {weeks ppd : ℕ} {sch : List Entry}
    (h : get_post_schedule df weeks ppd = some sch) :
    ∃ s2 : AllDays, Shape weeks s2 ∧ CapInv ppd s2 ∧ NodupInv s2 ∧ SpacInv s2 ∧
      flattenWeeks 0 s2 = some sch := by
  rw [get_post_schedule] at h
  rcases hb : buildPosts df with _ | b
  · rw [hb] at h; simp at h
  · rw [hb] at h
    obtain ⟨wposts, mposts, gs⟩ := b
    simp only [Option.bind_eq_bind, Option.some_bind] at h
    rcases h1 : weeklyPhase gs wposts ppd weeks (initGrid weeks) with _ | s1
    · rw [h1] at h; simp at h
    · rw [h1] at h
      simp only [Option.some_bind] at h
      rcases h2 : monthlyPhase gs mposts ppd weeks s1 with _ | s2
      · rw [h2] at h; simp at h
      · rw [h2] at h
        simp only [Option.some_bind] at h
        rw [balancePass_id] at h
        have hr : Reach ppd (initGrid weeks) s2 :=
          Reach.trans (weeklyPhase_reach h1) (monthlyPhase_reach h2)
        exact ⟨s2, hr.shape (initGrid_shape weeks), hr.cap (initGrid_cap weeks ppd),
          hr.nodup (initGrid_nodup weeks), hr.spacing (initGrid_spacing weeks), h⟩

/-- Core of the amended capacity claim: every produced schedule gives
every day of the horizon exactly 5 flattened entries. -/
theorem capacity_core {df : List Row} {weeks ppd : ℕ} {sch : List Entry}
    (h : get_post_schedule df weeks ppd = some sch) :
    ∀ o < 7 * weeks, (sch.filter fun e => e.day == o).length = 5 := by
  obtain ⟨s2, hsh, hcap, _, _, hfl⟩ := run_spec h
  intro o ho
  have hwi : o / 7 < weeks := by omega
  have hk : o % 7 < 7 := by omega
  obtain ⟨b, hb, hf⟩ := flattenWeeks_filter s2 0 sch (o / 7) (o % 7) hsh.2 hfl
    (by rw [hsh.1]; exact hwi) hk
  have ho2 : 7 * (0 + o / 7) + o % 7 = o := by omega
  rw [ho2] at hf
  rw [hf]
  exact (flattenDay_spec hb).2.1

/-- Core of the no-duplicate claim: among the entries of any one day, a
nonempty title occurs at most once. -/
theorem nodup_core {df : List Row} {weeks ppd : ℕ} {sch : List Entry}
    (h : get_post_schedule df weeks ppd = some sch) :
    ∀ (o : ℕ) (t : String), t ≠ "" →
      List.count t ((sch.filter fun e => e.day == o).map Entry.title) ≤ 1 := by
  obtain ⟨s2, hsh, _, hnd, _, hfl⟩ := run_spec h
  intro o t ht
  by_cases ho : o < 7 * weeks
  · have hwi : o / 7 < weeks := by omega
    have hk : o % 7 < 7 := by omega
    obtain ⟨b, hb, hf⟩ := flattenWeeks_filter s2 0 sch (o / 7) (o % 7) hsh.2 hfl
      (by rw [hsh.1]; exact hwi) hk
    have ho2 : 7 * (0 + o / 7) + o % 7 = o := by omega
    rw [ho2] at hf
    rw [hf, (flattenDay_spec hb).2.2.2, List.count_append, List.count_replicate]
    have hz : (("" : String) == t) = false := by
      rw [beq_eq_false_iff_ne]
      exact fun hh => ht hh.symm
    rw [hz]
    simp only [Bool.false_eq_true, if_false, Nat.add_zero]
    have := hnd (o / 7) (o % 7)
    rw [List.nodup_iff_count_le_one] at this
    exact this t
  · have hfe : sch.filter (fun e => e.day == o) = [] := by
      rw [List.filter_eq_nil_iff]
      intro e he
      have := flattenWeeks_days s2 0 sch hsh.2 hfl e he
      rw [hsh.1] at this
      simp only [beq_iff_eq]
      omega
    rw [hfe]
    simp

/-- Core of the spacing claim: two distinct entries with the same
nonempty title are more than two days apart. -/
theorem spacing_core {df : List Row} {weeks ppd : ℕ} {sch : List Entry}
    (h : get_post_schedule df weeks ppd = some sch) :
    ∀ e1 ∈ sch, ∀ e2 ∈ sch, e1.title = e2.title → e1.title ≠ "" → e1 ≠ e2 →
      2 < ((e1.day : ℤ) - (e2.day : ℤ)).natAbs := by
  obtain ⟨s2, hsh, _, hnd, hsp, hfl⟩ := run_spec h
  intro e1 he1 e2 he2 htt ht hne
  obtain ⟨w1, k1, hw1, hk1, hday1, hp1⟩ := flattenWeeks_mem s2 0 sch e1 hfl he1
  obtain ⟨w2, k2, hw2, hk2, hday2, hp2⟩ := flattenWeeks_mem s2 0 sch e2 hfl he2
  obtain ⟨p1, hp1m, hp1t⟩ := hp1 ht
  obtain ⟨p2, hp2m, hp2t⟩ := hp2 (htt ▸ ht)
  have hk1' : k1 < 7 := by
    have := hsh.2 (s2.getD w1 []) (by
      rw [List.getD_eq_getElem _ _ (by omega)]
      exact List.getElem_mem _)
    omega
  have hk2' : k2 < 7 := by
    have := hsh.2 (s2.getD w2 []) (by
      rw [List.getD_eq_getElem _ _ (by omega)]
      exact List.getElem_mem _)
    omega
  by_cases hsame : w1 = w2 ∧ k1 = k2
  · -- same day: contradicts the per-day count bound
    exfalso
    obtain ⟨rfl, rfl⟩ : w1 = w2 ∧ k1 = k2 := hsame
    have hdd : e1.day = e2.day := by rw [hday1, hday2]
    have hcnt := nodup_core h e1.day e1.title ht
    have he1f : e1 ∈ sch.filter (fun e => e.day == e1.day) :=
      List.mem_filter.mpr ⟨he1, by simp⟩
    have he2f : e2 ∈ sch.filter (fun e => e.day == e1.day) :=
      List.mem_filter.mpr ⟨he2, by rw [beq_iff_eq]; omega⟩
    set l := sch.filter (fun e => e.day == e1.day) with hl
    have hsub : e2 ∈ l.erase e1 := (List.mem_erase_of_ne hne.symm).mpr he2f
    have hcount : 2 ≤ List.count e1.title (l.map Entry.title) := by
      have h1 : List.count e1.title (l.map Entry.title) =
          ((l.filter fun e => e.title == e1.title).length) := by
        rw [List.count, List.countP_map]
        rw [List.countP_eq_length_filter]
        rfl
      rw [h1]
      have he1ff : e1 ∈ l.filter (fun e => e.title == e1.title) :=
        List.mem_filter.mpr ⟨he1f, by simp⟩
      have he2ff : e2 ∈ l.filter (fun e => e.title == e1.title) :=
        List.mem_filter.mpr ⟨he2f, by rw [beq_iff_eq]; exact htt.symm⟩
      set lf := l.filter (fun e => e.title == e1.title) with hlf
      have hsub2 : e2 ∈ lf.erase e1 := (List.mem_erase_of_ne hne.symm).mpr he2ff
      have hlen1 : 1 ≤ (lf.erase e1).length := List.length_pos_of_mem hsub2
      have hlen2 : (lf.erase e1).length = lf.length - 1 :=
        List.length_erase_of_mem he1ff
      have hpos : 1 ≤ lf.length := List.length_pos_of_mem he1ff
      omega
    omega
  · -- distinct days: the spacing invariant applies
    have := hsp w1 k1 w2 k2 hk1' hk2' hsame p1 hp1m p2 hp2m (by rw [hp1t, hp2t, htt])
    have hd1 : e1.day = 7 * w1 + k1 := by rw [hday1]; omega
    have hd2 : e2.day = 7 * w2 + k2 := by rw [hday2]; omega
    rw [hd1, hd2]
    omega

end CP

namespace CP

/-- With at most 5 slots per day configured, a run whose input building
and both placement phases complete (the mixed-group `KeyError` path is
not taken) always produces a schedule: the flattening step itself cannot
fail. -/
theorem gps_isSome_of_phases {df : List Row} {weeks ppd : ℕ}
    {wposts mposts : List PostInfo} {gs : List AltGroup} {s1 s2 : AllDays}
    (hppd : ppd ≤ 5) (hb : buildPosts df = some (wposts, mposts, gs))
    (h1 : weeklyPhase gs wposts ppd weeks (initGrid weeks) = some s1)
    (h2 : monthlyPhase gs mposts ppd weeks s1 = some s2) :
    (get_post_schedule df weeks ppd).isSome := by
  rw [get_post_schedule, hb]
  simp only [Option.bind_eq_bind, Option.some_bind]
  rw [h1]
  simp only [Option.some_bind]
  rw [h2]
  simp only [Option.some_bind]
  rw [balancePass_id]
  have hcap : CapInv ppd s2 :=
    (Reach.trans (weeklyPhase_reach h1) (monthlyPhase_reach h2)).cap
      (initGrid_cap weeks ppd)
  rw [flattenWeeks_isSome]
  intro wk hwk ps hps
  obtain ⟨wi, hwi, hwk'⟩ := List.mem_iff_getElem.mp hwk
  obtain ⟨k, hk, hps'⟩ := List.mem_iff_getElem.mp hps
  have hget : ps = getDay s2 wi k := by
    rw [getDay, List.getD_eq_getElem _ _ hwi, hwk', List.getD_eq_getElem _ _ hk, hps']
  rw [hget]
  exact le_trans (hcap wi k) hppd

/-- A weekly alternation group whose rotation picks a monthly member
crashes the run: the row pair below builds a monthly-declared group
holding the weekly post "W" (rows 2 and 3), month 0 selects "W", the
first placement succeeds, and `post['interval_months']`
(content_planner.py:372) raises `KeyError` — the model returns nothing
although validation and input building succeed. -/
theorem mixed_group_keyerror :
    validate_input [⟨"W", some 1, none, "", none⟩, ⟨"M", none, some 1, "", some "2"⟩] = true ∧
    (buildPosts [⟨"W", some 1, none, "", none⟩,
      ⟨"M", none, some 1, "", some "2"⟩]).isSome = true ∧
    get_post_schedule [⟨"W", some 1, none, "", none⟩,
      ⟨"M", none, some 1, "", some "2"⟩] 1 3 = none := by
  refine ⟨rfl, rfl, rfl⟩

/-- The balancing pass changes nothing, so the solver with and without it
produce the same schedule. -/
theorem gps_eq_noBalance (df : List Row) (weeks ppd : ℕ) :
    get_post_schedule df weeks ppd = get_post_schedule_noBalance df weeks ppd := by
  rcases hb : buildPosts df with _ | b
  · rw [get_post_schedule, get_post_schedule_noBalance, hb]
    simp only [Option.bind_eq_bind, Option.none_bind]
  · obtain ⟨wposts, mposts, gs⟩ := b
    rw [get_post_schedule, get_post_schedule_noBalance, hb]
    simp only [Option.bind_eq_bind, Option.some_bind]
    rcases h1 : weeklyPhase gs wposts ppd weeks (initGrid weeks) with _ | s1
    · simp only [Option.none_bind]
    · simp only [Option.some_bind]
      rcases h2 : monthlyPhase gs mposts ppd weeks s1 with _ | s2
      · simp only [Option.none_bind]
      · simp only [Option.some_bind]
        rw [balancePass_id]

/-- Logical reading of `validate_input`. -/
theorem validate_input_iff (df : List Row) :
    validate_input df = true ↔
      ∀ row ∈ df, ¬(row.B.isSome ∧ row.C.isSome) ∧
        ∀ s, row.E = some s → ∃ xs, parseAlternation s = some xs ∧
          ∀ x ∈ xs, 2 ≤ x ∧ x ≤ (df.length : ℤ) + 1 := by
  rw [validate_input, List.all_eq_true]
  constructor
  · intro h row hrow
    have hr := h row hrow
    by_cases hbc : row.B.isSome && row.C.isSome
    · rw [if_pos hbc] at hr
      exact absurd hr (by simp)
    · rw [if_neg hbc] at hr
      refine ⟨by simpa using hbc, ?_⟩
      intro s hes
      simp only [hes] at hr
      rcases hp : parseAlternation s with _ | xs
      · simp only [hp] at hr
        exact absurd hr (by simp)
      · simp only [hp] at hr
        refine ⟨xs, rfl, ?_⟩
        intro x hx
        rw [Bool.not_eq_true'] at hr
        rw [List.any_eq_false] at hr
        have := hr x hx
        simp only [Bool.or_eq_true, decide_eq_true_eq, not_or] at this
        omega
  · intro h row hrow
    obtain ⟨hbc, he⟩ := h row hrow
    rw [if_neg (by simpa using hbc)]
    rcases hes : row.E with _ | s
    · simp only [hes]
    · obtain ⟨xs, hp, hxs⟩ := he s hes
      simp only [hes, hp]
      rw [Bool.not_eq_true', List.any_eq_false]
      intro x hx
      have := hxs x hx
      simp only [Bool.or_eq_true, decide_eq_true_eq, not_or]
      omega

/-- Validation failure aborts the run before placement: no schedule is
returned. -/
theorem plan_eq_none_of_invalid {df : List Row} {weeks ppd : ℕ}
    (h : validate_input df = false) : plan df weeks ppd = none := by
  rw [plan, h]
  simp

end CP

/-! ### Day-schedule lemmas for the weekly planner -/

namespace SG

theorem dayEntries_cons_hit {p : ℤ × List (Option Msg)} {rest : Sched} {dt : ℤ}
    (h : p.1 = dt) : dayEntries (p :: rest) dt = p.2 := by
  have hb : (p.1 == dt) = true := by simpa using h
  rw [dayEntries, lookupDay, List.find?_cons]
  simp only [hb]
  rfl

theorem dayEntries_cons_miss {p : ℤ × List (Option Msg)} {rest : Sched} {dt : ℤ}
    (h : p.1 ≠ dt) : dayEntries (p :: rest) dt = dayEntries rest dt := by
  have hb : (p.1 == dt) = false := by simpa using h
  rw [dayEntries, lookupDay, List.find?_cons]
  simp only [hb]
  rfl

theorem appendEntry_cons (p : ℤ × List (Option Msg)) (rest : Sched) (dt : ℤ)
    (e : Option Msg) :
    appendEntry (p :: rest) dt e =
      (if p.1 = dt then (p.1, p.2 ++ [e]) else p) :: appendEntry rest dt e := by
  rw [appendEntry, List.map_cons]
  by_cases h : p.1 = dt
  · rw [if_pos (by simpa using h), if_pos h]
    rfl
  · rw [if_neg (by simpa using h), if_neg h]
    rfl

theorem dayEntries_appendEntry_ne {sch : Sched} {dt dt' : ℤ} {e : Option Msg}
    (hq : dt' ≠ dt) :
    dayEntries (appendEntry sch dt e) dt' = dayEntries sch dt' := by
  induction sch with
  | nil => rfl
  | cons p rest ih =>
    rw [appendEntry_cons]
    by_cases hp : p.1 = dt
    · have hp' : p.1 ≠ dt' := by rw [hp]; exact fun hh => hq hh.symm
      rw [if_pos hp, dayEntries_cons_miss (by simpa using hp'), ih,
        dayEntries_cons_miss hp']
    · rw [if_neg hp]
      by_cases hp' : p.1 = dt'
      · rw [dayEntries_cons_hit hp', dayEntries_cons_hit hp']
      · rw [dayEntries_cons_miss hp', ih, dayEntries_cons_miss hp']

theorem dayEntries_appendEntry_self {sch : Sched} {dt : ℤ} {e : Option Msg} :
    dayEntries (appendEntry sch dt e) dt = dayEntries sch dt ++ [e] ∨
      (dayEntries (appendEntry sch dt e) dt = [] ∧ dayEntries sch dt = []) := by
  induction sch with
  | nil => right; exact ⟨rfl, rfl⟩
  | cons p rest ih =>
    rw [appendEntry_cons]
    by_cases hp : p.1 = dt
    · left
      rw [if_pos hp, dayEntries_cons_hit (by simpa using hp), dayEntries_cons_hit hp]
    · rw [if_neg hp, dayEntries_cons_miss hp, dayEntries_cons_miss hp]
      exact ih

/-- Every day of the schedule after an append is either unchanged or the
appended day itself (which existed) extended by the new entry. -/
theorem dayEntries_appendEntry (sch : Sched) (dt : ℤ) (e : Option Msg) (dt' : ℤ) :
    dayEntries (appendEntry sch dt e) dt' = dayEntries sch dt' ∨
      (dt' = dt ∧ dayEntries (appendEntry sch dt e) dt' = dayEntries sch dt ++ [e]) := by
  by_cases hq : dt' = dt
  · subst hq
    rcases @dayEntries_appendEntry_self sch dt' e with h | ⟨h1, h2⟩
    · exact Or.inr ⟨rfl, h⟩
    · left
      rw [h1, h2]
  · exact Or.inl (dayEntries_appendEntry_ne hq)

/-- What a successful `can_add_post_to_day` check guarantees. -/
theorem can_add_spec {sch : Sched} {dt : ℤ} {mid : ℤ} {conflicts : List ℤ}
    (h : can_add_post_to_day sch dt mid conflicts = true) :
    (∀ e ∈ dayEntries sch dt, entryId e ≠ some mid) ∧
      (∀ c ∈ conflicts, ∀ e ∈ dayEntries sch dt, entryId e ≠ some c) ∧
      (∀ dt' : ℤ, dt' ≠ dt → (dt - dt').natAbs ≤ 2 →
        ∀ e ∈ dayEntries sch dt', entryId e ≠ some mid) := by
  rw [can_add_post_to_day] at h
  rcases hl : lookupDay sch dt with _ | posts
  · rw [hl] at h
    have hwin : (([-2, -1, 1, 2] : List ℤ).all fun off =>
        match lookupDay sch (dt + off) with
        | some posts => !(posts.any fun e => entryId e == some mid)
        | none => true) = true := by
      simpa using h
    refine ⟨?_, ?_, ?_⟩
    · intro e he
      rw [dayEntries, hl] at he
      simp at he
    · intro c _ e he
      rw [dayEntries, hl] at he
      simp at he
    · intro dt' hne hdist e he hid
      rw [List.all_eq_true] at hwin
      have hoff : dt' - dt ∈ ([-2, -1, 1, 2] : List ℤ) := by
        simp only [List.mem_cons, List.mem_singleton]
        omega
      have := hwin (dt' - dt) hoff
      have hdd : dt + (dt' - dt) = dt' := by ring
      rw [hdd] at this
      rcases hl' : lookupDay sch dt' with _ | posts'
      · rw [dayEntries, hl'] at he
        simp at he
      · rw [hl'] at this
        rw [dayEntries, hl'] at he
        rw [Bool.not_eq_eq_eq_not, Bool.not_true, List.any_eq_false] at this
        exact this e he (by rw [hid]; simp)
  · rw [hl] at h
    by_cases h1 : posts.any fun e => entryId e == some mid
    · simp [h1] at h
    · by_cases h2 : conflicts.any fun c => posts.any fun e => entryId e == some c
      · simp [h1, h2] at h
      · have hwin : (([-2, -1, 1, 2] : List ℤ).all fun off =>
            match lookupDay sch (dt + off) with
            | some posts => !(posts.any fun e => entryId e == some mid)
            | none => true) = true := by
          simpa [h1, h2] using h
        refine ⟨?_, ?_, ?_⟩
        · intro e he hid
          rw [dayEntries, hl] at he
          rw [Bool.not_eq_true, List.any_eq_false] at h1
          exact h1 e he (by rw [hid]; simp)
        · intro c hc e he hid
          rw [Bool.not_eq_true, List.any_eq_false] at h2
          have h2c := h2 c hc
          rw [Bool.not_eq_true, List.any_eq_false] at h2c
          rw [dayEntries, hl] at he
          exact h2c e he (by rw [hid]; simp)
        · intro dt' hne hdist e he hid
          rw [List.all_eq_true] at hwin
          have hoff : dt' - dt ∈ ([-2, -1, 1, 2] : List ℤ) := by
            simp only [List.mem_cons, List.mem_singleton]
            omega
          have := hwin (dt' - dt) hoff
          have hdd : dt + (dt' - dt) = dt' := by ring
          rw [hdd] at this
          rcases hl' : lookupDay sch dt' with _ | posts'
          · rw [dayEntries, hl'] at he
            simp at he
          · rw [hl'] at this
            rw [dayEntries, hl'] at he
            rw [Bool.not_eq_eq_eq_not, Bool.not_true, List.any_eq_false] at this
            exact this e he (by rw [hid]; simp)

end SG

namespace SG

/-- One mutation of the week schedule: a guarded placement, or an
explicitly empty slot. -/
inductive SStep : Sched → Sched → Prop
  | place (sch : Sched) (dt : ℤ) (m : Msg)
      (hcan : can_add_post_to_day sch dt m.id m.conflicts = true) :
      SStep sch (appendEntry sch dt (some m))
  | empty (sch : Sched) (dt : ℤ) : SStep sch (appendEntry sch dt none)

/-- Reachability by schedule mutations. -/
def SReach : Sched → Sched → Prop :=
  Relation.ReflTransGen SStep

/-- The messages of a day's entries (empty slots dropped). -/
def someMsgs (l : List (Option Msg)) : List Msg :=
  l.filterMap id

theorem someMsgs_append_some (l : List (Option Msg)) (m : Msg) :
    someMsgs (l ++ [some m]) = someMsgs l ++ [m] := by
  rw [someMsgs, someMsgs, List.filterMap_append]
  rfl

theorem someMsgs_append_none (l : List (Option Msg)) :
    someMsgs (l ++ [none]) = someMsgs l := by
  rw [someMsgs, someMsgs, List.filterMap_append]
  rw [show (([none] : List (Option Msg)).filterMap id) = [] from rfl]
  exact List.append_nil _

theorem mem_someMsgs {l : List (Option Msg)} {m : Msg} :
    m ∈ someMsgs l ↔ some m ∈ l := by
  rw [someMsgs, List.mem_filterMap]
  constructor
  · rintro ⟨a, ha, haa⟩
    cases a with
    | none => exact Option.noConfusion haa
    | some b =>
      simp only [id_eq, Option.some.injEq] at haa
      subst haa
      exact ha
  · intro hm
    exact ⟨some m, hm, rfl⟩

/-- The invariants of the planner's schedule. -/
def SGInv (sch : Sched) : Prop :=
  (∀ dt, (someMsgs (dayEntries sch dt)).Pairwise fun m1 m2 => m1.id ≠ m2.id) ∧
    (∀ dt, (someMsgs (dayEntries sch dt)).Pairwise fun m1 m2 =>
      ¬(m1.id ∈ m2.conflicts ∧ m2.id ∈ m1.conflicts)) ∧
    (∀ dt1 dt2 m1 m2, m1 ∈ someMsgs (dayEntries sch dt1) →
      m2 ∈ someMsgs (dayEntries sch dt2) → m1.id = m2.id →
      dt1 = dt2 ∨ 2 < (dt1 - dt2).natAbs)

theorem SStep.inv_step {sch sch' : Sched} (hst : SStep sch sch') (hs : SGInv sch) :
    SGInv sch' := by
  obtain ⟨hid, hconf, hspace⟩ := hs
  cases hst with
  | place dt m hcan =>
    obtain ⟨hc1, hc2, hc3⟩ := can_add_spec hcan
    refine ⟨?_, ?_, ?_⟩
    · intro dt'
      rcases dayEntries_appendEntry sch dt (some m) dt' with h | ⟨hq, h⟩
      · rw [h]; exact hid dt'
      · rw [h, someMsgs_append_some, List.pairwise_append]
        refine ⟨hid dt, List.pairwise_singleton _ _, ?_⟩
        intro a ha b hb
        rw [List.mem_singleton] at hb
        subst hb
        intro heq
        exact hc1 (some a) (mem_someMsgs.mp ha) (by simp [entryId, heq])
    · intro dt'
      rcases dayEntries_appendEntry sch dt (some m) dt' with h | ⟨hq, h⟩
      · rw [h]; exact hconf dt'
      · rw [h, someMsgs_append_some, List.pairwise_append]
        refine ⟨hconf dt, List.pairwise_singleton _ _, ?_⟩
        intro a ha b hb
        rw [List.mem_singleton] at hb
        subst hb
        intro hab
        exact hc2 a.id hab.1 (some a) (mem_someMsgs.mp ha) (by simp [entryId])
    · intro dt1 dt2 m1 m2 hm1 hm2 heq
      rcases dayEntries_appendEntry sch dt (some m) dt1 with h1 | ⟨hq1, h1⟩ <;>
        rcases dayEntries_appendEntry sch dt (some m) dt2 with h2 | ⟨hq2, h2⟩
      · exact hspace dt1 dt2 m1 m2 (h1 ▸ hm1) (h2 ▸ hm2) heq
      · rw [h2, someMsgs_append_some] at hm2
        rw [hq2]
        rcases List.mem_append.mp hm2 with hm2 | hm2
        · exact hspace dt1 dt m1 m2 (h1 ▸ hm1) hm2 heq
        · rw [List.mem_singleton] at hm2
          subst hm2
          by_cases hdd : dt1 = dt
          · exact Or.inl hdd
          · right
            by_contra hcl
            push_neg at hcl
            exact hc3 dt1 hdd (by omega) (some m1) (mem_someMsgs.mp (h1 ▸ hm1))
              (by simp [entryId, heq])
      · rw [h1, someMsgs_append_some] at hm1
        rw [hq1]
        rcases List.mem_append.mp hm1 with hm1 | hm1
        · exact hspace dt dt2 m1 m2 hm1 (h2 ▸ hm2) heq
        · rw [List.mem_singleton] at hm1
          subst hm1
          by_cases hdd : dt2 = dt
          · exact Or.inl hdd.symm
          · right
            by_contra hcl
            push_neg at hcl
            have := hc3 dt2 hdd (by omega) (some m2) (mem_someMsgs.mp (h2 ▸ hm2))
              (by simp [entryId, heq])
            exact this
      · rw [hq1, hq2]
        exact Or.inl rfl
  | empty dt =>
    refine ⟨?_, ?_, ?_⟩
    · intro dt'
      rcases dayEntries_appendEntry sch dt none dt' with h | ⟨hq, h⟩
      · rw [h]; exact hid dt'
      · rw [h, someMsgs_append_none]; exact hid dt
    · intro dt'
      rcases dayEntries_appendEntry sch dt none dt' with h | ⟨hq, h⟩
      · rw [h]; exact hconf dt'
      · rw [h, someMsgs_append_none]; exact hconf dt
    · intro dt1 dt2 m1 m2 hm1 hm2 heq
      rcases dayEntries_appendEntry sch dt none dt1 with h1 | ⟨hq1, h1⟩ <;>
        rcases dayEntries_appendEntry sch dt none dt2 with h2 | ⟨hq2, h2⟩
      · exact hspace dt1 dt2 m1 m2 (h1 ▸ hm1) (h2 ▸ hm2) heq
      · rw [h2, someMsgs_append_none] at hm2
        rw [hq2]
        exact hspace dt1 dt m1 m2 (h1 ▸ hm1) hm2 heq
      · rw [h1, someMsgs_append_none] at hm1
        rw [hq1]
        exact hspace dt dt2 m1 m2 hm1 (h2 ▸ hm2) heq
      · rw [hq1, hq2]
        exact Or.inl rfl

theorem SReach.inv {sch sch' : Sched} (h : SReach sch sch') (hs : SGInv sch) : SGInv sch' := by
  induction h with
  | refl => exact hs
  | tail _ hstep ih => exact hstep.inv_step ih

end SG

namespace SG

theorem SReach.srefl (sch : Sched) : SReach sch sch :=
  Relation.ReflTransGen.refl

theorem SReach.strans {a b c : Sched} (h1 : SReach a b) (h2 : SReach b c) : SReach a c :=
  Relation.ReflTransGen.trans h1 h2

/-- Candidates listed by the first pass satisfy the placement check. -/
theorem mem_pass1_dl {sched : Sched} {dates : List ℤ} {ppd : ℕ} {m : Msg} {x : ℤ × ℕ}
    (hx : x ∈ dates.filterMap fun dt =>
      if get_day_post_count sched dt < ppd then
        if can_add_post_to_day sched dt m.id m.conflicts then
          some (dt, get_day_post_count sched dt)
        else none
      else none) :
    can_add_post_to_day sched x.1 m.id m.conflicts = true := by
  rw [List.mem_filterMap] at hx
  obtain ⟨dt, _, hif⟩ := hx
  by_cases h1 : get_day_post_count sched dt < ppd
  · rw [if_pos h1] at hif
    by_cases h2 : can_add_post_to_day sched dt m.id m.conflicts
    · rw [if_pos h2] at hif
      simp only [Option.some.injEq] at hif
      subst hif
      exact h2
    · rw [if_neg h2] at hif
      exact Option.noConfusion hif
  · rw [if_neg h1] at hif
    exact Option.noConfusion hif

theorem pass1Go_reach (pick : ℕ → ℕ) (dates : List ℤ) (ppd : ℕ) (m : Msg) (target : ℕ) :
    ∀ (fuel placed attempts ctr : ℕ) (sched : Sched),
      SReach sched (pass1Go pick dates ppd m target fuel placed attempts ctr sched).1 := by
  intro fuel
  induction fuel with
  | zero => intro placed attempts ctr sched; exact SReach.srefl sched
  | succ fuel ih =>
    intro placed attempts ctr sched
    rw [pass1Go]
    by_cases hc : placed < target ∧ attempts < 50
    · rw [if_pos hc]
      set dl := dates.filterMap fun dt =>
        if get_day_post_count sched dt < ppd then
          if can_add_post_to_day sched dt m.id m.conflicts then
            some (dt, get_day_post_count sched dt)
          else none
        else none with hdl
      by_cases he : dl.isEmpty
      · rw [if_pos he]
        exact SReach.srefl sched
      · rw [if_neg he]
        have hne : dl ≠ [] := by
          intro hh
          rw [hh] at he
          exact he rfl
        set sorted := CP.pySort (fun a b => a.2 ≤ b.2) dl with hsorted
        have hsne : sorted ≠ [] := by
          intro hh
          have hlen := (CP.pySort_perm (fun a b => a.2 ≤ b.2) dl).length_eq
          rw [← hsorted, hh] at hlen
          simp only [List.length_nil] at hlen
          exact hne (List.length_eq_zero.mp hlen.symm)
        set daysMin := (sorted.filter fun p => p.2 == (sorted.headD (0, 0)).2).map (·.1)
          with hdm
        have hdmne : daysMin ≠ [] := by
          have hhead : sorted.headD (0, 0) ∈ sorted := by
            rcases List.exists_cons_of_ne_nil hsne with ⟨a, l, hal⟩
            rw [hal]
            simp
          have hmemf : sorted.headD (0, 0) ∈
              sorted.filter fun p => p.2 == (sorted.headD (0, 0)).2 :=
            List.mem_filter.mpr ⟨hhead, by simp⟩
          intro hh
          rw [hdm] at hh
          rw [List.map_eq_nil_iff] at hh
          rw [hh] at hmemf
          simp at hmemf
        have hbest : daysMin.getD (pick ctr % daysMin.length) 0 ∈ daysMin := by
          have hlen : 0 < daysMin.length := List.length_pos.mpr hdmne
          have hlt : pick ctr % daysMin.length < daysMin.length := Nat.mod_lt _ hlen
          rw [List.getD_eq_getElem _ _ hlt]
          exact List.getElem_mem _
        have hcan : can_add_post_to_day sched (daysMin.getD (pick ctr % daysMin.length) 0)
            m.id m.conflicts = true := by
          rw [hdm] at hbest
          rw [List.mem_map] at hbest
          obtain ⟨p, hp, hpp⟩ := hbest
          have hpdl : p ∈ dl := CP.mem_pySort.mp (List.mem_filter.mp hp).1
          have := mem_pass1_dl (hdl ▸ hpdl)
          rw [hpp] at this
          exact this
        exact SReach.strans
          (Relation.ReflTransGen.single (SStep.place sched _ m hcan))
          (ih (placed + 1) (attempts + 1) (ctr + 1) _)
    · rw [if_neg hc]
      exact SReach.srefl sched

theorem foldl_sreach {α : Type} {g : Sched × ℕ → α → Sched × ℕ}
    (hg : ∀ acc x, SReach acc.1 (g acc x).1) :
    ∀ (l : List α) (acc : Sched × ℕ), SReach acc.1 (l.foldl g acc).1 := by
  intro l
  induction l with
  | nil => intro acc; exact SReach.srefl acc.1
  | cons x xs ih =>
    intro acc
    rw [List.foldl_cons]
    exact SReach.strans (hg acc x) (ih (g acc x))

theorem pass1_reach (pick : ℕ → ℕ) (dates : List ℤ) (ppd : ℕ) (ranked : List (Msg × ℤ))
    (sched : Sched) (ctr : ℕ) : SReach sched (pass1 pick dates ppd ranked sched ctr).1 := by
  rw [pass1]
  refine foldl_sreach (fun acc md => ?_) ranked (sched, ctr)
  show SReach acc.1
    (if (weeklyTarget md.1.freqDays).toNat = 0 then acc
     else pass1Go pick dates ppd md.1 (weeklyTarget md.1.freqDays).toNat 51 0 0 acc.2 acc.1).1
  by_cases ht : (weeklyTarget md.1.freqDays).toNat = 0
  · rw [if_pos ht]
    exact SReach.srefl acc.1
  · rw [if_neg ht]
    exact pass1Go_reach pick dates ppd md.1 _ 51 0 0 acc.2 acc.1

theorem pass2Fill_reach (shuf : ℕ → List Msg → List Msg) (msgs : List Msg) (dt : ℤ) :
    ∀ (k : ℕ) (sched : Sched) (ctr : ℕ),
      SReach sched (pass2Fill shuf msgs dt k sched ctr).1 := by
  intro k
  induction k with
  | zero => intro sched ctr; exact SReach.srefl sched
  | succ k ih =>
    intro sched ctr
    rw [pass2Fill]
    rcases hf : (shuf ctr msgs).find?
        (fun m => can_add_post_to_day sched dt m.id m.conflicts) with _ | m
    · simp only [hf]
      exact SReach.strans
        (Relation.ReflTransGen.single (SStep.empty sched dt)) (ih _ _)
    · simp only [hf]
      have hcan := List.find?_some hf
      exact SReach.strans
        (Relation.ReflTransGen.single (SStep.place sched dt m (by simpa using hcan)))
        (ih _ _)

theorem pass2_reach (shuf : ℕ → List Msg → List Msg) (msgs : List Msg) (ppd : ℕ)
    (dates : List ℤ) (sched : Sched) (ctr : ℕ) :
    SReach sched (pass2 shuf msgs ppd dates sched ctr).1 := by
  rw [pass2]
  refine foldl_sreach (fun acc dt => ?_) dates (sched, ctr)
  show SReach acc.1
    (if get_day_post_count acc.1 dt < ppd then
      pass2Fill shuf msgs dt (ppd - get_day_post_count acc.1 dt) acc.1 acc.2
     else acc).1
  by_cases hcnt : get_day_post_count acc.1 dt < ppd
  · rw [if_pos hcnt]
    exact pass2Fill_reach shuf msgs dt _ acc.1 acc.2
  · rw [if_neg hcnt]
    exact SReach.srefl acc.1

/-- The freshly initialised week schedule has no entries. -/
theorem dayEntries_init (dates : List ℤ) (dt : ℤ) :
    dayEntries (dates.map fun d => (d, [])) dt = [] := by
  induction dates with
  | nil => rfl
  | cons d rest ih =>
    rw [List.map_cons]
    by_cases h : d = dt
    · rw [dayEntries_cons_hit (by simpa using h)]
    · rw [dayEntries_cons_miss (by simpa using h)]
      exact ih

theorem init_inv (dates : List ℤ) : SGInv (dates.map fun d => (d, [])) := by
  refine ⟨?_, ?_, ?_⟩
  · intro dt
    rw [dayEntries_init]
    exact List.Pairwise.nil
  · intro dt
    rw [dayEntries_init]
    exact List.Pairwise.nil
  · intro dt1 dt2 m1 m2 hm1
    rw [dayEntries_init] at hm1
    simp [someMsgs] at hm1

end SG

namespace SG

theorem map_snd_zip_take {α β : Type} :
    ∀ (l1 : List α) (l2 : List β), (l1.zip l2).map Prod.snd = l2.take l1.length := by
  intro l1
  induction l1 with
  | nil => intro l2; simp
  | cons a l1 ih =>
    intro l2
    cases l2 with
    | nil => simp
    | cons b l2 =>
      rw [List.zip_cons_cons, List.map_cons, List.length_cons, List.take_succ_cons, ih]

/-- An entry of one day's flattened block: its date is the block's date and
its slot content is one of the day's entries. -/
theorem block_mem {dayShuf : ℕ → List (Option Msg) → List (Option Msg)} {sched : Sched}
    {kdt : ℕ × ℤ} {e : OutEntry}
    (hperm : ∀ k l, (dayShuf k l).Perm l)
    (he : e ∈ ((List.range postingTimes.length).zip
        (dayShuf kdt.1 (dayEntries sched kdt.2))).map fun ip =>
        (⟨kdt.2, ip.1, ip.2⟩ : OutEntry)) :
    e.date = kdt.2 ∧ e.msg ∈ dayEntries sched kdt.2 := by
  rw [List.mem_map] at he
  obtain ⟨ip, hip, rfl⟩ := he
  refine ⟨rfl, ?_⟩
  have hsnd : ip.2 ∈ ((List.range postingTimes.length).zip
      (dayShuf kdt.1 (dayEntries sched kdt.2))).map Prod.snd :=
    List.mem_map_of_mem _ hip
  rw [map_snd_zip_take] at hsnd
  have hmem : ip.2 ∈ dayShuf kdt.1 (dayEntries sched kdt.2) :=
    List.take_subset _ _ hsnd
  exact (hperm kdt.1 _).mem_iff.mp hmem

/-- Transfer a pairwise day-level property of the schedule to the
flattened, shuffled, chronologically sorted output. -/
theorem flattenSG_pairwise {dayShuf : ℕ → List (Option Msg) → List (Option Msg)}
    {dates : List ℤ} {sched : Sched}
    (Q : ℤ → Option Msg → ℤ → Option Msg → Prop)
    (hsymm : ∀ d1 o1 d2 o2, Q d1 o1 d2 o2 → Q d2 o2 d1 o1)
    (hperm : ∀ k l, (dayShuf k l).Perm l)
    (hin : ∀ dt, (dayEntries sched dt).Pairwise fun o1 o2 => Q dt o1 dt o2)
    (hcross : ∀ dt1 dt2, dt1 ≠ dt2 → ∀ o1 ∈ dayEntries sched dt1,
      ∀ o2 ∈ dayEntries sched dt2, Q dt1 o1 dt2 o2)
    (hd : dates.Pairwise (· ≠ ·)) :
    (flattenSG dayShuf dates sched).Pairwise fun e1 e2 =>
      Q e1.date e1.msg e2.date e2.msg := by
  rw [flattenSG]
  rw [(CP.pySort_perm dtLe _).pairwise_iff
    (fun h => hsymm _ _ _ _ h)]
  rw [List.flatMap_def, List.pairwise_flatten]
  constructor
  · -- within one block
    intro bl hbl
    rw [List.mem_map] at hbl
    obtain ⟨kdt, hkdt, rfl⟩ := hbl
    rw [List.pairwise_map]
    have hday : (dayShuf kdt.1 (dayEntries sched kdt.2)).Pairwise
        fun o1 o2 => Q kdt.2 o1 kdt.2 o2 :=
      ((hperm kdt.1 _).pairwise_iff (fun h => hsymm _ _ _ _ h)).mpr (hin kdt.2)
    have hmapped : (((List.range postingTimes.length).zip
        (dayShuf kdt.1 (dayEntries sched kdt.2))).map Prod.snd).Pairwise
        (fun o1 o2 => Q kdt.2 o1 kdt.2 o2) := by
      rw [map_snd_zip_take]
      exact hday.sublist (List.take_sublist _ _)
    exact List.pairwise_map.mp hmapped
  · -- across blocks
    rw [List.pairwise_map]
    have hmapped : (((List.range dates.length).zip dates).map Prod.snd).Pairwise
        (fun a b => a ≠ b) := by
      rw [map_snd_zip_take]
      exact hd.sublist (List.take_sublist _ _)
    have hzip : ((List.range dates.length).zip dates).Pairwise
        fun kd1 kd2 => kd1.2 ≠ kd2.2 := List.pairwise_map.mp hmapped
    refine hzip.imp_of_mem ?_
    intro kd1 kd2 _ _ hne
    intro e1 he1 e2 he2
    obtain ⟨hd1, hm1⟩ := block_mem hperm he1
    obtain ⟨hd2, hm2⟩ := block_mem hperm he2
    rw [hd1, hd2]
    exact hcross kd1.2 kd2.2 hne e1.msg hm1 e2.msg hm2

end SG

namespace SG

/-- The two placement passes starting from the empty week grid preserve the
placement invariants, for any date list. -/
theorem smart_inv (pick : ℕ → ℕ) (shuf : ℕ → List Msg → List Msg)
    (msgs : List Msg) (ranked : List (Msg × ℤ)) (dates : List ℤ) (ppd : ℕ) :
    SGInv (pass2 shuf msgs ppd dates
      (pass1 pick dates ppd ranked (dates.map fun dt => (dt, [])) 0).1 0).1 := by
  have h0 := init_inv dates
  have h1 := pass1_reach pick dates ppd ranked (dates.map fun dt => (dt, [])) 0
  have h2 := pass2_reach shuf msgs ppd dates
    (pass1 pick dates ppd ranked (dates.map fun dt => (dt, [])) 0).1 0
  exact ((h1.strans h2).inv) h0

/-- A planner run is empty (no messages) or the flattening of a schedule
satisfying the placement invariants. -/
theorem smart_run_cases (msgs : List Msg) (lastSent : ℤ → Option ℤ) (start : ℤ)
    (pick : ℕ → ℕ) (shuf : ℕ → List Msg → List Msg)
    (dayShuf : ℕ → List (Option Msg) → List (Option Msg)) :
    get_planned_posts_for_week_smart msgs lastSent start pick shuf dayShuf = [] ∨
      ∃ sched, SGInv sched ∧
        get_planned_posts_for_week_smart msgs lastSent start pick shuf dayShuf =
          flattenSG dayShuf ((List.range 7).map (fun i : ℕ => start + (i : ℤ))) sched := by
  rw [get_planned_posts_for_week_smart]
  by_cases he : msgs.isEmpty
  · rw [if_pos he]
    exact Or.inl rfl
  · rw [if_neg he]
    exact Or.inr ⟨_, smart_inv pick shuf msgs (rankedMessages msgs lastSent start) _ _, rfl⟩

theorem dates_pairwise_ne (start : ℤ) :
    (((List.range 7).map (fun i : ℕ => start + (i : ℤ))).Pairwise (· ≠ ·)) := by
  rw [List.pairwise_map]
  refine (List.pairwise_lt_range 7).imp ?_
  intro i j hij
  intro hh
  omega

theorem pairwise_entries_of_someMsgs {l : List (Option Msg)} {R : Msg → Msg → Prop}
    (h : (someMsgs l).Pairwise R) :
    l.Pairwise fun o1 o2 => ∀ m1 ∈ o1, ∀ m2 ∈ o2, R m1 m2 := by
  rw [someMsgs] at h
  have h2 := List.pairwise_filterMap.mp h
  refine h2.imp ?_
  intro o1 o2 hq m1 hm1 m2 hm2
  exact hq m1 (by simpa using hm1) m2 (by simpa using hm2)

/-- No two same-day output entries carry the same message id, for every
catalog, ledger, and random draw. -/
theorem smart_run_distinct_ids (msgs : List Msg) (lastSent : ℤ → Option ℤ) (start : ℤ)
    (pick : ℕ → ℕ) (shuf : ℕ → List Msg → List Msg)
    (dayShuf : ℕ → List (Option Msg) → List (Option Msg))
    (hperm : ∀ k l, (dayShuf k l).Perm l) :
    (get_planned_posts_for_week_smart msgs lastSent start pick shuf dayShuf).Pairwise
      fun e1 e2 => e1.date = e2.date → ∀ m1 ∈ e1.msg, ∀ m2 ∈ e2.msg, m1.id ≠ m2.id := by
  rcases smart_run_cases msgs lastSent start pick shuf dayShuf with h | ⟨sched, hinv, h⟩
  · rw [h]; exact List.Pairwise.nil
  · rw [h]
    exact flattenSG_pairwise
      (fun d1 o1 d2 o2 => d1 = d2 → ∀ m1 ∈ o1, ∀ m2 ∈ o2, m1.id ≠ m2.id)
      (fun d1 o1 d2 o2 hq hd m2 hm2 m1 hm1 => (hq hd.symm m1 hm1 m2 hm2).symm)
      hperm
      (fun dt => (pairwise_entries_of_someMsgs (hinv.1 dt)).imp
        (fun hq _ m1 hm1 m2 hm2 => hq m1 hm1 m2 hm2))
      (fun dt1 dt2 hne o1 _ o2 _ hd => absurd hd hne)
      (dates_pairwise_ne start)

/-- No two same-day output entries mutually conflict, for every catalog,
ledger, and random draw. -/
theorem smart_run_no_mutual_conflict (msgs : List Msg) (lastSent : ℤ → Option ℤ)
    (start : ℤ) (pick : ℕ → ℕ) (shuf : ℕ → List Msg → List Msg)
    (dayShuf : ℕ → List (Option Msg) → List (Option Msg))
    (hperm : ∀ k l, (dayShuf k l).Perm l) :
    (get_planned_posts_for_week_smart msgs lastSent start pick shuf dayShuf).Pairwise
      fun e1 e2 => e1.date = e2.date → ∀ m1 ∈ e1.msg, ∀ m2 ∈ e2.msg,
        ¬(m1.id ∈ m2.conflicts ∧ m2.id ∈ m1.conflicts) := by
  rcases smart_run_cases msgs lastSent start pick shuf dayShuf with h | ⟨sched, hinv, h⟩
  · rw [h]; exact List.Pairwise.nil
  · rw [h]
    exact flattenSG_pairwise
      (fun d1 o1 d2 o2 => d1 = d2 → ∀ m1 ∈ o1, ∀ m2 ∈ o2,
        ¬(m1.id ∈ m2.conflicts ∧ m2.id ∈ m1.conflicts))
      (fun d1 o1 d2 o2 hq hd m2 hm2 m1 hm1 hc =>
        hq hd.symm m1 hm1 m2 hm2 ⟨hc.2, hc.1⟩)
      hperm
      (fun dt => (pairwise_entries_of_someMsgs (hinv.2.1 dt)).imp
        (fun hq _ m1 hm1 m2 hm2 => hq m1 hm1 m2 hm2))
      (fun dt1 dt2 hne o1 _ o2 _ hd => absurd hd hne)
      (dates_pairwise_ne start)

/-- Same-id output entries are more than two days apart, for every
catalog, ledger, and random draw. -/
theorem smart_run_spacing (msgs : List Msg) (lastSent : ℤ → Option ℤ) (start : ℤ)
    (pick : ℕ → ℕ) (shuf : ℕ → List Msg → List Msg)
    (dayShuf : ℕ → List (Option Msg) → List (Option Msg))
    (hperm : ∀ k l, (dayShuf k l).Perm l) :
    (get_planned_posts_for_week_smart msgs lastSent start pick shuf dayShuf).Pairwise
      fun e1 e2 => ∀ m1 ∈ e1.msg, ∀ m2 ∈ e2.msg, m1.id = m2.id →
        2 < (e1.date - e2.date).natAbs := by
  rcases smart_run_cases msgs lastSent start pick shuf dayShuf with h | ⟨sched, hinv, h⟩
  · rw [h]; exact List.Pairwise.nil
  · rw [h]
    refine flattenSG_pairwise
      (fun d1 o1 d2 o2 => ∀ m1 ∈ o1, ∀ m2 ∈ o2, m1.id = m2.id →
        2 < (d1 - d2).natAbs)
      ?_ hperm ?_ ?_ (dates_pairwise_ne start)
    · intro d1 o1 d2 o2 hq m2 hm2 m1 hm1 heq
      have hx := hq m1 hm1 m2 hm2 heq.symm
      omega
    · intro dt
      refine (pairwise_entries_of_someMsgs (hinv.1 dt)).imp ?_
      intro o1 o2 hq m1 hm1 m2 hm2 heq
      exact absurd heq (hq m1 hm1 m2 hm2)
    · intro dt1 dt2 hne o1 ho1 o2 ho2 m1 hm1 m2 hm2 heq
      have hs1 : m1 ∈ someMsgs (dayEntries sched dt1) := by
        rw [mem_someMsgs]
        rw [Option.mem_def] at hm1
        rw [← hm1]
        exact ho1
      have hs2 : m2 ∈ someMsgs (dayEntries sched dt2) := by
        rw [mem_someMsgs]
        rw [Option.mem_def] at hm2
        rw [← hm2]
        exact ho2
      rcases hinv.2.2 dt1 dt2 m1 m2 hs1 hs2 heq with hh | hh
      · exact absurd hh hne
      · exact hh

end SG

namespace SG

/-- Every entry of the ranked list carries its own priority, and that
priority is positive (zero-priority messages are filtered out,
schedule_generator_new.py:166-168). -/
theorem mem_rankedMessages {msgs : List Msg} {lastSent : ℤ → Option ℤ} {cur : ℤ}
    {x : Msg × ℤ} (hx : x ∈ rankedMessages msgs lastSent cur) :
    x.1 ∈ msgs ∧ x.2 = calculate_message_priority lastSent cur x.1 ∧ 0 < x.2 := by
  rw [rankedMessages, CP.mem_pySort, List.mem_filter] at hx
  rcases hx with ⟨hmem, hpos⟩
  rw [List.mem_map] at hmem
  rcases hmem with ⟨m, hm, hxm⟩
  subst hxm
  exact ⟨hm, rfl, by exact_mod_cast of_decide_eq_true hpos⟩

/-- The priority never exceeds 100. -/
theorem calculate_message_priority_le (lastSent : ℤ → Option ℤ) (cur : ℤ) (m : Msg) :
    calculate_message_priority lastSent cur m ≤ 100 := by
  rw [calculate_message_priority]
  rcases lastSent m.id with _ | d
  · exact le_refl _
  · simp only
    split
    · omega
    · split
      · omega
      · have h := min_le_right ((cur - d - m.freqDays) * 5) 50
        omega

end SG

/-! ### Helpers for the run-level claim statements -/

namespace CP

/-- A completed `plan` run is a completed `get_post_schedule` run. -/
theorem plan_some {df : List Row} {weeks ppd : ℕ} {sch : List Entry}
    (h : plan df weeks ppd = some sch) : get_post_schedule df weeks ppd = some sch := by
  rw [plan] at h
  by_cases hv : validate_input df
  · rwa [if_pos hv] at h
  · rw [if_neg hv] at h
    exact absurd h (by simp)

/-- The rotation index as the spec words it for every group kind:
`period_index // interval_length % len(members)` (spec §3,
`rotation_cursor`).  Spec-modelled definition, for comparison with the
code's `weeklyGroupIndex` and `monthlyGroupIndex`. -/
def specRotationIndex (p iL n : ℕ) : ℕ :=
  p / iL % n

end CP

/-! ### The claims -/

/-- C1 (amended): for every completed planning run, the flattened output
contains, for every calendar day of the horizon, exactly 5 entries
(filled or explicitly empty) — the count is the fixed length of
`post_slots`, not the configured max-items-per-day. -/
theorem C1_capacity_is_five {df : List CP.Row} {weeks ppd : ℕ} {sch : List CP.Entry}
    (h : CP.plan df weeks ppd = some sch) :
    ∀ o < 7 * weeks, (sch.filter fun e => e.day == o).length = 5 :=
  CP.capacity_core (CP.plan_some h)

theorem C1_capacity_is_five_witness :
    (((CP.plan [] 1 3).getD []).filter fun e => e.day == 0).length = 5 :=
  @C1_capacity_is_five [] 1 3 ((CP.plan [] 1 3).getD []) rfl 0 (by decide)

/-- C1 counterexample to the claimed count: a validated run configured
with max-items-per-day 1 still emits 5 entries for day 0, not 1. -/
theorem C1_capacity_counterexample :
    CP.validate_input [] = true ∧ (CP.plan [] 1 1).isSome = true ∧
      (((CP.plan [] 1 1).getD []).filter fun e => e.day == 0).length = 5 := by
  refine ⟨rfl, rfl, rfl⟩

/-- C2: no item appears twice among one day's entries, in either planner:
a `plan` run never repeats a nonempty title within a day, and a
`get_planned_posts_for_week_smart` run never repeats a message id within
a day, whatever the random draws. -/
theorem C2_no_duplicate_per_day :
    (∀ (df : List CP.Row) (weeks ppd : ℕ) (sch : List CP.Entry),
        CP.plan df weeks ppd = some sch →
        ∀ (o : ℕ) (t : String), t ≠ "" →
          List.count t ((sch.filter fun e => e.day == o).map CP.Entry.title) ≤ 1) ∧
    (∀ (msgs : List SG.Msg) (lastSent : ℤ → Option ℤ) (start : ℤ)
        (pick : ℕ → ℕ) (shuf : ℕ → List SG.Msg → List SG.Msg)
        (dayShuf : ℕ → List (Option SG.Msg) → List (Option SG.Msg)),
        (∀ k l, (dayShuf k l).Perm l) →
        (SG.get_planned_posts_for_week_smart msgs lastSent start pick shuf dayShuf).Pairwise
          fun e1 e2 => e1.date = e2.date →
            ∀ m1 ∈ e1.msg, ∀ m2 ∈ e2.msg, m1.id ≠ m2.id) :=
  ⟨fun _ _ _ _ h => CP.nodup_core (CP.plan_some h),
   fun msgs lastSent start pick shuf dayShuf hperm =>
     SG.smart_run_distinct_ids msgs lastSent start pick shuf dayShuf hperm⟩

theorem C2_no_duplicate_witness :
    List.count "A" ((((CP.plan [⟨"A", some 2, none, "l", none⟩] 1 3).getD []).filter
      fun e => e.day == 0).map CP.Entry.title) ≤ 1 :=
  C2_no_duplicate_per_day.1 [⟨"A", some 2, none, "l", none⟩] 1 3
    ((CP.plan [⟨"A", some 2, none, "l", none⟩] 1 3).getD []) rfl 0 "A" (by decide)

/-- C3: two entries of the same item are always more than 2 days apart,
measured by absolute date difference across week boundaries, in either
planner. -/
theorem C3_spacing :
    (∀ (df : List CP.Row) (weeks ppd : ℕ) (sch : List CP.Entry),
        CP.plan df weeks ppd = some sch →
        ∀ e1 ∈ sch, ∀ e2 ∈ sch, e1.title = e2.title → e1.title ≠ "" → e1 ≠ e2 →
          2 < ((e1.day : ℤ) - (e2.day : ℤ)).natAbs) ∧
    (∀ (msgs : List SG.Msg) (lastSent : ℤ → Option ℤ) (start : ℤ)
        (pick : ℕ → ℕ) (shuf : ℕ → List SG.Msg → List SG.Msg)
        (dayShuf : ℕ → List (Option SG.Msg) → List (Option SG.Msg)),
        (∀ k l, (dayShuf k l).Perm l) →
        (SG.get_planned_posts_for_week_smart msgs lastSent start pick shuf dayShuf).Pairwise
          fun e1 e2 => ∀ m1 ∈ e1.msg, ∀ m2 ∈ e2.msg, m1.id = m2.id →
            2 < (e1.date - e2.date).natAbs) :=
  ⟨fun _ _ _ _ h => CP.spacing_core (CP.plan_some h),
   fun msgs lastSent start pick shuf dayShuf hperm =>
     SG.smart_run_spacing msgs lastSent start pick shuf dayShuf hperm⟩

theorem C3_spacing_witness :
    2 < (((0 : ℕ) : ℤ) - ((3 : ℕ) : ℤ)).natAbs :=
  C3_spacing.1 [⟨"A", some 2, none, "l", none⟩] 1 3
    ((CP.plan [⟨"A", some 2, none, "l", none⟩] 1 3).getD []) rfl
    ⟨0, "08:00", "A", "l"⟩ (by decide) ⟨3, "08:00", "A", "l"⟩ (by decide)
    rfl (by decide) (by decide)

/-- C4 (amended): the conflict check guards only the added message's own
conflict list, so what the output guarantees is the mutual version: no
two same-day entries list each other's ids, whatever the random draws.
(A one-way listed conflict can share a day, see the counterexample.) -/
theorem C4_mutual_conflict (msgs : List SG.Msg) (lastSent : ℤ → Option ℤ) (start : ℤ)
    (pick : ℕ → ℕ) (shuf : ℕ → List SG.Msg → List SG.Msg)
    (dayShuf : ℕ → List (Option SG.Msg) → List (Option SG.Msg))
    (hperm : ∀ k l, (dayShuf k l).Perm l) :
    (SG.get_planned_posts_for_week_smart msgs lastSent start pick shuf dayShuf).Pairwise
      fun e1 e2 => e1.date = e2.date → ∀ m1 ∈ e1.msg, ∀ m2 ∈ e2.msg,
        ¬(m1.id ∈ m2.conflicts ∧ m2.id ∈ m1.conflicts) :=
  SG.smart_run_no_mutual_conflict msgs lastSent start pick shuf dayShuf hperm

theorem C4_mutual_conflict_witness :
    (SG.get_planned_posts_for_week_smart [⟨1, "A", 7, [2]⟩, ⟨2, "B", 5, []⟩]
        (fun _ => none) 0 (fun _ => 0) (fun _ l => l) (fun _ l => l)).Pairwise
      fun e1 e2 => e1.date = e2.date → ∀ m1 ∈ e1.msg, ∀ m2 ∈ e2.msg,
        ¬(m1.id ∈ m2.conflicts ∧ m2.id ∈ m1.conflicts) :=
  C4_mutual_conflict [⟨1, "A", 7, [2]⟩, ⟨2, "B", 5, []⟩]
    (fun _ => none) 0 (fun _ => 0) (fun _ l => l) (fun _ l => l)
    (fun _ l => List.Perm.refl l)

/-- C4 counterexample to the either-direction reading: message 1 lists
message 2 as a same-day conflict (and not conversely), yet a run
schedules both on day 0 (slots 0 and 1). -/
theorem C4_conflict_counterexample :
    (⟨0, 0, some ⟨1, "A", 7, [2]⟩⟩ : SG.OutEntry) ∈
      SG.get_planned_posts_for_week_smart [⟨1, "A", 7, [2]⟩, ⟨2, "B", 5, []⟩]
        (fun _ => none) 0 (fun _ => 0) (fun _ l => l) (fun _ l => l) ∧
    (⟨0, 1, some ⟨2, "B", 5, []⟩⟩ : SG.OutEntry) ∈
      SG.get_planned_posts_for_week_smart [⟨1, "A", 7, [2]⟩, ⟨2, "B", 5, []⟩]
        (fun _ => none) 0 (fun _ => 0) (fun _ l => l) (fun _ l => l) ∧
    (2 : ℤ) ∈ [(2 : ℤ)] ∧ (1 : ℤ) ∉ ([] : List ℤ) := by
  refine ⟨by decide, by decide, by decide, by decide⟩

/-- C5 (amended): the period-wide exclusion exists only on the monthly
placement path, and its reach is the target week and the two adjacent
weeks (±1 week), not a month: a day accepted by the monthly
`can_add_post` check holds no placement of the title anywhere in weeks
`w-1 .. w+1`.  (Weekly alternation-group placements get no period-wide
exclusion at all, see the counterexample.) -/
theorem C5_monthly_period_exclusion {s : CP.AllDays} {w d : ℕ} {t : String}
    (h : CP.can_add_post s w d t true = true) :
    ∀ (w' d' : ℕ), w' < s.length → w ≤ w' + 1 → w' ≤ w + 1 → d' < 7 →
      ∀ p ∈ CP.getDay s w' d', p.title ≠ t :=
  CP.can_add_post_monthly h

theorem C5_monthly_period_witness :
    (CP.Post.mk "B" "x").title ≠ "A" :=
  C5_monthly_period_exclusion (s := [[[⟨"B", "x"⟩]]]) (w := 0) (d := 0) (t := "A")
    (by decide) 0 0 (by decide) (by decide) (by decide) (by decide) ⟨"B", "x"⟩ (by decide)

/-- C5 counterexample to the claimed period-wide exclusion for
alternation-group items: "A" belongs to a weekly alternation group
(rows 2 and 3 reference each other) and is placed twice inside the same
weekly period, on days 0 and 3. -/
theorem C5_period_counterexample :
    CP.validate_input
      [⟨"A", some 2, none, "", some "3"⟩, ⟨"Bb", some 2, none, "", some "2"⟩] = true ∧
    (((CP.plan [⟨"A", some 2, none, "", some "3"⟩, ⟨"Bb", some 2, none, "", some "2"⟩]
        1 3).getD []).filter fun e => e.title == "A").map CP.Entry.day = [0, 3] := by
  refine ⟨rfl, rfl⟩

/-- C6 (amended): the weekly rotation index is the spec's
`period_index // interval_length % len(members)`, and for a two-member
weekly group with interval 1 member 0 is selected exactly in the even
weeks; the monthly rotation index however is `month % len(members)` with
no division by the interval, which agrees with the spec formula only for
interval 1 (where periods 0, 1, 2 of a three-member group do select three
distinct members). -/
theorem C6_rotation_formula :
    (∀ week iW n : ℕ, CP.weeklyGroupIndex week iW n = CP.specRotationIndex week iW n) ∧
    (∀ month n : ℕ, CP.monthlyGroupIndex month n = month % n) ∧
    (∀ i : ℕ, CP.weeklyGroupIndex i 1 2 = 0 ↔ i % 2 = 0) ∧
    (∀ m n : ℕ, CP.monthlyGroupIndex m n = CP.specRotationIndex m 1 n) ∧
    (List.map (fun m => CP.monthlyGroupIndex m 3) [0, 1, 2]).Nodup := by
  refine ⟨fun _ _ _ => rfl, fun _ _ => rfl, ?_, ?_, by decide⟩
  · intro i
    rw [CP.weeklyGroupIndex, Nat.div_one]
  · intro m n
    rw [CP.monthlyGroupIndex, CP.specRotationIndex, Nat.div_one]

/-- C6 counterexample to the general rotation formula: a two-member
monthly alternation group at interval 2 (frequency 0.5) plans months
0 and 2 of a 9-week horizon; the spec formula `period // interval %
len` selects member 0 then member 1, but the code's `month % len`
selects member 0 both times — "GA" lands on days 0 and 56 and "GB" is
never scheduled, while `specRotationIndex` distinguishes the two months. -/
theorem C6_rotation_counterexample :
    (((CP.plan [⟨"GA", none, some (mkRat 1 2), "", some "3"⟩,
        ⟨"GB", none, some (mkRat 1 2), "", some "2"⟩] 9 3).getD []).filter
      fun e => e.title == "GA").map CP.Entry.day = [0, 56] ∧
    (((CP.plan [⟨"GA", none, some (mkRat 1 2), "", some "3"⟩,
        ⟨"GB", none, some (mkRat 1 2), "", some "2"⟩] 9 3).getD []).filter
      fun e => e.title == "GB") = [] ∧
    CP.specRotationIndex 0 2 2 = 0 ∧ CP.specRotationIndex 2 2 2 = 1 ∧
    CP.monthlyGroupIndex 0 2 = 0 ∧ CP.monthlyGroupIndex 2 2 = 0 := by
  set_option maxRecDepth 8000 in
  refine ⟨rfl, rfl, rfl, rfl, rfl, rfl⟩

/-- C7: the priority function returns 100 when the ledger has no
last-sent date, 0 when the elapsed days fall short of the frequency (and
such messages are excluded from the ranker's output, whose entries all
carry their own positive priority), 50 at exact equality, and
`min(50 + (elapsed - frequency) * 5, 100)` when overdue; the result
never exceeds 100. -/
theorem C7_priority_spec (lastSent : ℤ → Option ℤ) (cur : ℤ) (m : SG.Msg)
    (msgs : List SG.Msg) :
    (lastSent m.id = none → SG.calculate_message_priority lastSent cur m = 100) ∧
    (∀ d : ℤ, lastSent m.id = some d →
      (cur - d < m.freqDays → SG.calculate_message_priority lastSent cur m = 0) ∧
      (cur - d = m.freqDays → SG.calculate_message_priority lastSent cur m = 50) ∧
      (m.freqDays < cur - d →
        SG.calculate_message_priority lastSent cur m =
          min (50 + (cur - d - m.freqDays) * 5) 100)) ∧
    SG.calculate_message_priority lastSent cur m ≤ 100 ∧
    (∀ x ∈ SG.rankedMessages msgs lastSent cur,
      0 < x.2 ∧ x.2 = SG.calculate_message_priority lastSent cur x.1) := by
  refine ⟨?_, ?_, SG.calculate_message_priority_le lastSent cur m, ?_⟩
  · intro h
    rw [SG.calculate_message_priority, h]
  · intro d hd
    have hval : SG.calculate_message_priority lastSent cur m =
        (if cur - d < m.freqDays then 0
         else if cur - d = m.freqDays then (50 : ℤ)
         else 50 + min ((cur - d - m.freqDays) * 5) 50) := by
      rw [SG.calculate_message_priority, hd]
    refine ⟨?_, ?_, ?_⟩ <;> intro hc <;> rw [hval]
    · rw [if_pos hc]
    · rw [if_neg (by omega), if_pos hc]
    · rw [if_neg (by omega), if_neg (by omega)]
      simp only [min_def]
      split <;> split <;> omega
  · intro x hx
    have h := SG.mem_rankedMessages hx
    exact ⟨h.2.2, h.2.1⟩

theorem C7_priority_witness :
    SG.calculate_message_priority (fun _ => some 0) 10 ⟨1, "A", 3, []⟩ =
      min (50 + (10 - 0 - 3) * 5) 100 :=
  ((C7_priority_spec (fun _ => some 0) 10 ⟨1, "A", 3, []⟩ []).2.1 0 rfl).2.2 (by decide)

/-- C8 (amended): input validation rejects exactly the rows with both
frequency columns set and the rows whose alternation cell fails to parse
as comma-separated integers within `2 .. len(df) + 1`; a failed
validation aborts the run with no schedule.  The frequency *value* is
never validated (see the counterexample). -/
theorem C8_validation_characterization :
    (∀ df : List CP.Row, CP.validate_input df = true ↔
      ∀ row ∈ df, ¬(row.B.isSome ∧ row.C.isSome) ∧
        ∀ s, row.E = some s → ∃ xs, CP.parseAlternation s = some xs ∧
          ∀ x ∈ xs, 2 ≤ x ∧ x ≤ (df.length : ℤ) + 1) ∧
    (∀ (df : List CP.Row) (weeks ppd : ℕ),
      CP.validate_input df = false → CP.plan df weeks ppd = none) :=
  ⟨CP.validate_input_iff, fun _ _ _ h => CP.plan_eq_none_of_invalid h⟩

theorem C8_validation_witness :
    CP.plan [⟨"X", some 1, some 1, "", none⟩] 1 3 = none :=
  C8_validation_characterization.2 [⟨"X", some 1, some 1, "", none⟩] 1 3 (by decide)

/-- C8 counterexample to the claimed frequency-value checks: a catalog
whose weekly frequencies are 5/2 (neither a positive integer nor 0.5)
and -3 (negative) passes validation. -/
theorem C8_validation_counterexample :
    CP.validate_input [⟨"X", some (mkRat 5 2), none, "", none⟩,
      ⟨"Y", some (-3), none, "", none⟩] = true ∧
    (mkRat 5 2).den ≠ 1 ∧ mkRat 5 2 ≠ mkRat 1 2 ∧ (-3 : ℚ) < 0 := by
  refine ⟨rfl, by decide, by decide, by decide⟩

/-- C9: the hotspot-relief balancing pass is the identity on every grid —
the move is vetted by `can_add_post` while the candidate post still sits
one day away, so the ±2-day window always rejects it — and therefore the
solver with the balancing pass removed returns the same schedule. -/
theorem C9_balancing_noop :
    (∀ (weeks : ℕ) (s : CP.AllDays), CP.balancePass weeks s = s) ∧
    (∀ (df : List CP.Row) (weeks ppd : ℕ),
      CP.get_post_schedule df weeks ppd = CP.get_post_schedule_noBalance df weeks ppd) :=
  ⟨CP.balancePass_id, CP.gps_eq_noBalance⟩

/-- C10: flattening is total exactly when every day holds at most 5
posts — `post_slots` has 5 entries, a 6-post day makes the whole run
return nothing — and with at most 5 slots per day configured the
flattening error branch is unreachable: a run whose input building and
both placement phases complete (runs can still abort earlier, on the
mixed-group `KeyError` of content_planner.py:269/372) always returns a
schedule. -/
theorem C10_flatten_totality :
    (∀ (s : CP.AllDays) (w0 : ℕ),
      (CP.flattenWeeks w0 s).isSome ↔ ∀ wk ∈ s, ∀ ps ∈ wk, ps.length ≤ 5) ∧
    (∀ (df : List CP.Row) (weeks ppd : ℕ) (wposts mposts : List CP.PostInfo)
        (gs : List CP.AltGroup) (s1 s2 : CP.AllDays),
      ppd ≤ 5 → CP.buildPosts df = some (wposts, mposts, gs) →
      CP.weeklyPhase gs wposts ppd weeks (CP.initGrid weeks) = some s1 →
      CP.monthlyPhase gs mposts ppd weeks s1 = some s2 →
      (CP.get_post_schedule df weeks ppd).isSome) ∧
    CP.flattenWeeks 0 [[List.replicate 6 ⟨"a", "b"⟩]] = none ∧
    CP.post_slots.length = 5 :=
  ⟨CP.flattenWeeks_isSome,
   fun _ _ _ _ _ _ _ _ hppd hb h1 h2 => CP.gps_isSome_of_phases hppd hb h1 h2,
   rfl, rfl⟩

theorem C10_flatten_witness :
    (CP.get_post_schedule [] 1 3).isSome :=
  C10_flatten_totality.2.1 [] 1 3 [] [] [] (CP.initGrid 1) (CP.initGrid 1)
    (by decide) rfl rfl rfl
